import Mathlib

/-!
Verification of the xvcpi5 repository: a shallow embedding of the JTAG TAP
walker (src/jtag_rpi.py) and of the XVC server's shift path (src/xvcpi.py),
with theorems settling the specification's claims about them.

Machine conventions: bit strings of the walker are `List Bool` in the same
order as the Python character strings (head of the list is the leftmost,
most significant character); TDO samples are supplied by an oracle
`Nat → Bool` indexed by the running count of `phy_sync` calls; Python
exceptions are modelled by `Option` (`none` means the call raised);
unbounded `while` loops take an explicit fuel argument, `none` standing for
either an exception or fuel exhaustion.
-/

set_option maxHeartbeats 1000000

namespace Xvcpi

/-- Kinds of JTAG traversal legs, from `JtagLeg` in src/jtag_rpi.py. -/
inductive JtagLeg where
  | DR | IR | RS | DL | ID | IRP | IRD | DRC | DRR | DRS
deriving DecidableEq, Repr

/-- TAP controller states, from `JtagState` in src/jtag_rpi.py. -/
inductive JtagState where
  | TEST_LOGIC_RESET | RUN_TEST_IDLE | SELECT_SCAN | CAPTURE | SHIFT
  | EXIT1 | PAUSE | EXIT2 | UPDATE
deriving DecidableEq, Repr

/-- One pending leg: the Python 3-element list `[kind, bits, tag]`. -/
structure Leg where
  kind : JtagLeg
  bits : List Bool
  tag : String
deriving DecidableEq, Repr

/-- The mutable state of a `JTAGRpi` object, restricted to the fields the
TAP walker reads or writes, plus the observable pin history: `trace` is the
list of `(tdi, tms)` arguments of every `phy_sync` call so far, and `cycle`
counts those calls (it indexes the TDO oracle). -/
structure W where
  state : JtagState
  jtag_legs : List Leg
  cur_leg : Option Leg
  tdo_vect : List Bool
  do_pause : Bool
  readout : Bool
  jtag_results : List Nat
  readdata : Nat
  last_ir_val : Int
  tms_reset_num : Nat
  trace : List (Bool × Bool)
  cycle : Nat
deriving DecidableEq, Repr

/-- Value of a bit string read MSB-first, modelling Python `int(s, 2)`
on a nonempty string of 0/1 characters. -/
def binVal (l : List Bool) : Nat :=
  l.foldl (fun a b => 2 * a + (if b then 1 else 0)) 0

/-- One TCK cycle (`JTAGRpi.phy_sync`): sample TDO before any edge, then
drive TCK=0, TDI, TMS, TCK=1, TCK=0. The sampled TDO is the oracle at the
current cycle index; the `(tdi, tms)` pair is appended to the trace. -/
def phy_sync (o : Nat → Bool) (tdi tms : Bool) (w : W) : Bool × W :=
  (o w.cycle, { w with trace := w.trace ++ [(tdi, tms)], cycle := w.cycle + 1 })

/-- `n` consecutive `phy_sync` calls with fixed TDI/TMS, as in the `for`
loop of the RS branch of `jtag_step`. -/
def syncs (o : Nat → Bool) (tdi tms : Bool) : Nat → W → W
  | 0, w => w
  | n + 1, w => syncs o tdi tms n (phy_sync o tdi tms w).2

/-- Identity of a pin driven by `phy_sync`. -/
inductive Pin where
  | TCK | TMS | TDI
deriving DecidableEq, Repr

/-- The five pin writes one `phy_sync (tdi, tms)` call performs, in source
order: TCK=0, TDI=tdi, TMS=tms, TCK=1, TCK=0. -/
def phyWrites (c : Bool × Bool) : List (Pin × Bool) :=
  [(Pin.TCK, false), (Pin.TDI, c.1), (Pin.TMS, c.2), (Pin.TCK, true), (Pin.TCK, false)]

/-- Full pin-write history determined by a cycle trace. -/
def pinTrace (t : List (Bool × Bool)) : List (Pin × Bool) :=
  t.flatMap phyWrites

/-- One call of `JTAGRpi.jtag_step`. `none` models a Python exception:
the DRC/DRS `raise`, `IndexError` popping an empty list in the DL/ID
branches or indexing an empty bit string in SHIFT, and `ValueError` from
`int("", 2)` in UPDATE. -/
def jtag_step (o : Nat → Bool) (w : W) : Option W :=
  match w.state with
  | .TEST_LOGIC_RESET =>
      if w.jtag_legs.length = 0 then some w
      else
        some { (phy_sync o false false w).2 with
               state := .RUN_TEST_IDLE, last_ir_val := -1 }
  | .RUN_TEST_IDLE =>
      match w.cur_leg with
      | some leg =>
        match leg.kind with
        | .DR | .DRC | .DRR | .DRS =>
            some { (phy_sync o false true w).2 with
                   readout := decide (leg.kind = .DRR ∨ leg.kind = .DRS),
                   state := .SELECT_SCAN }
        | .IR | .IRD =>
            some { (phy_sync o false true (phy_sync o false true w).2).2 with
                   do_pause := false, state := .SELECT_SCAN }
        | .IRP =>
            some { (phy_sync o false true (phy_sync o false true w).2).2 with
                   do_pause := true, state := .SELECT_SCAN }
        | .RS =>
            let w1 := syncs o false true w.tms_reset_num w
            match w1.jtag_legs with
            | [] => some { w1 with
                state := .TEST_LOGIC_RESET, last_ir_val := -1, cur_leg := none }
            | l :: ls => some { w1 with
                state := .TEST_LOGIC_RESET, last_ir_val := -1,
                cur_leg := some l, jtag_legs := ls }
        | .DL =>
            match w.jtag_legs with
            | [] => none
            | l :: ls => some { w with cur_leg := some l, jtag_legs := ls }
        | .ID =>
            let w1 := (phy_sync o false false w).2
            match w1.jtag_legs with
            | [] => none
            | l :: ls => some { w1 with cur_leg := some l, jtag_legs := ls }
      | none =>
        match w.jtag_legs with
        | l :: ls => some { w with
            cur_leg := some l, jtag_legs := ls, state := .RUN_TEST_IDLE }
        | [] => some { (phy_sync o false false w).2 with state := .RUN_TEST_IDLE }
  | .SELECT_SCAN =>
      some { (phy_sync o false false w).2 with state := .CAPTURE }
  | .CAPTURE =>
      some { (phy_sync o false false w).2 with tdo_vect := [], state := .SHIFT }
  | .SHIFT =>
      match w.cur_leg with
      | none => none
      | some leg =>
        if leg.kind = .DRC ∨ leg.kind = .DRS then none
        else
          if 1 < leg.bits.length then
            let p := phy_sync o (leg.bits.getLastD false) false w
            some { p.2 with
                   cur_leg := some { leg with bits := leg.bits.dropLast },
                   tdo_vect := p.1 :: w.tdo_vect, state := .SHIFT }
          else
            match leg.bits with
            | [] => none
            | b :: _ =>
              let p := phy_sync o b true w
              some { p.2 with
                     cur_leg := none, tdo_vect := p.1 :: w.tdo_vect,
                     state := .EXIT1 }
  | .EXIT1 =>
      if w.do_pause then
        some { (phy_sync o false false w).2 with state := .PAUSE, do_pause := false }
      else
        some { (phy_sync o false true w).2 with state := .UPDATE }
  | .PAUSE =>
      some { (phy_sync o false true w).2 with state := .EXIT2 }
  | .EXIT2 =>
      some { (phy_sync o false true w).2 with state := .UPDATE }
  | .UPDATE =>
      match w.tdo_vect with
      | [] => none
      | _ :: _ =>
        let v := binVal w.tdo_vect
        let w1 := { w with jtag_results := w.jtag_results ++ [v] }
        let w2 := if w1.readout then { w1 with readdata := v, readout := false } else w1
        let w3 := { w2 with tdo_vect := [] }
        match w3.jtag_legs with
        | head :: rest =>
          if head.kind = .DR ∨ head.kind = .IRP ∨ head.kind = .IRD then
            let w4 := if head.kind = .IRP ∨ head.kind = .IRD
                      then (phy_sync o false true w3).2 else w3
            let w5 := if head.kind = .IRP then { w4 with do_pause := true } else w4
            let w6 := { w5 with cur_leg := some head, jtag_legs := rest }
            some { (phy_sync o false true w6).2 with state := .SELECT_SCAN }
          else
            some { (phy_sync o false false w3).2 with state := .RUN_TEST_IDLE }
        | [] => some { (phy_sync o false false w3).2 with state := .RUN_TEST_IDLE }

/-- `n` iterated `jtag_step` calls, failing if any call raises. -/
def stepN (o : Nat → Bool) : Nat → W → Option W
  | 0, w => some w
  | n + 1, w =>
    match jtag_step o w with
    | none => none
    | some w1 => stepN o n w1

/-- Whether a TAP state is one of the two idle states the `jtag_next`
loops test for. -/
def idleState (s : JtagState) : Bool :=
  s == .TEST_LOGIC_RESET || s == .RUN_TEST_IDLE

/-- First `while` loop of `JTAGRpi.jtag_next` (run until out of idle):
step while the state is idle, breaking after any step that leaves the
active leg empty. -/
def loopA (o : Nat → Bool) : Nat → W → Option W
  | 0, w => if idleState w.state then none else some w
  | fuel + 1, w =>
    if idleState w.state then
      match jtag_step o w with
      | none => none
      | some w1 => if w1.cur_leg = none then some w1 else loopA o fuel w1
    else some w

/-- Second `while` loop of `JTAGRpi.jtag_next` (run to idle): step while
the state is not idle. -/
def loopB (o : Nat → Bool) : Nat → W → Option W
  | 0, w => if idleState w.state then some w else none
  | fuel + 1, w =>
    if idleState w.state then some w
    else
      match jtag_step o w with
      | none => none
      | some w1 => loopB o fuel w1

/-- `JTAGRpi.jtag_next`. -/
def jtag_next (o : Nat → Bool) (fuel : Nat) (w : W) : Option W :=
  if idleState w.state then
    if w.jtag_legs.length ≠ 0 then
      match loopA o fuel w with
      | none => none
      | some w1 => loopB o fuel w1
    else jtag_step o w
  else loopB o fuel w

/-- `JTAGRpi.process_command`: call `jtag_next` while legs are pending. -/
def process_command (o : Nat → Bool) : Nat → W → Option W
  | 0, w => if w.jtag_legs = [] then some w else none
  | fuel + 1, w =>
    if w.jtag_legs = [] then some w
    else
      match jtag_next o fuel w with
      | none => none
      | some w1 => process_command o fuel w1

/-- A textual command row after field splitting, at the interface level the
specification gives for the row parser: the chain field as text, the length
and value fields already read as numbers, and the optional fourth tag
field. -/
structure Row where
  chain : String
  length : Nat
  value : Nat
  tag : Option String
deriving DecidableEq, Repr

/-- LSB-first binary digits of `n` (empty for zero), computed with a
structural fuel argument; any `fuel ≥ n` gives the digits. -/
def natBitsAux : Nat → Nat → List Bool
  | 0, _ => []
  | fuel + 1, n =>
    if n = 0 then [] else decide (n % 2 = 1) :: natBitsAux fuel (n / 2)

/-- MSB-first binary digit string of `n`, the Python `bin(n)[2:]`
(a single `"0"` for zero). -/
def natDigits (n : Nat) : List Bool :=
  if n = 0 then [false] else (natBitsAux n n).reverse

/-- Binary digit string of `value` zero-padded on the left to width
`length`, modelling the Python expression
`"%0*d" % (length, int(bin(value)[2:]))` (never shorter than one digit,
longer than `length` when `value` needs more digits). -/
def padBits (length value : Nat) : List Bool :=
  List.replicate (length - (natDigits value).length) false ++ natDigits value

/-- `JTAGRpi.parse_row` on one structured row whose chain field is given
already lower-cased and stripped (the source normalises it with
`lower().strip()` first). `none` models `exit(1)` on an unknown chain kind
and the `raise` on drc/drr/drs rows; `some none` a comment row that appends
nothing; `some (some leg)` the appended leg. -/
def parse_row (row : Row) : Option (Option Leg) :=
  let chain := row.chain
  match chain.data with
  | [] => none
  | c :: _ =>
    if c = '#' then some none
    else if chain = "rs" then some (some ⟨.RS, [false], "0"⟩)
    else if chain = "dl" then some (some ⟨.DL, [false], "0"⟩)
    else if chain = "id" then some (some ⟨.ID, [false], "0"⟩)
    else if chain = "drc" ∨ chain = "drr" ∨ chain = "drs" then none
    else if chain = "dr" ∨ chain = "ir" ∨ chain = "ird" ∨ chain = "irp" then
      let code : JtagLeg :=
        if chain = "dr" then .DR
        else if chain = "ir" then .IR
        else if chain = "ird" then .IRD
        else .IRP
      let tag := match row.tag with
                 | some t => t
                 | none => " "
      some (some ⟨code, padBits row.length row.value, tag⟩)
    else none

/-- Legs accumulated by parsing a list of rows in order. -/
def parse_append : List Row → List Leg → Option (List Leg)
  | [], acc => some acc
  | r :: rs, acc =>
    match parse_row r with
    | none => none
    | some none => parse_append rs acc
    | some (some leg) => parse_append rs (acc ++ [leg])

/-- `JTAGRpi.parse_rows`: reset the pending queue, the active leg and the
results, parse every row, then run `process_command`. -/
def parse_rows (o : Nat → Bool) (fuel : Nat) (rows : List Row) (w : W) : Option W :=
  match parse_append rows [] with
  | none => none
  | some legs =>
    process_command o fuel
      { w with jtag_legs := legs, cur_leg := none, jtag_results := [] }

/-- `JTAGRpi.reset_fsm`: set `tms_reset_num` and run the single row
`rs, 0, 0`. -/
def reset_fsm (o : Nat → Bool) (fuel num : Nat) (w : W) : Option W :=
  parse_rows o fuel [{ chain := "rs", length := 0, value := 0, tag := none }]
    { w with tms_reset_num := num }

/-- One device of the chain, restricted to the catalog fields
`JTAGRpi.access` reads: the IR width, the address of the `BYPASS` name, and
the DR width of each register address (`none` models a missing catalog
entry, which raises `KeyError`). -/
structure JTAGDevice where
  ir_len : Nat
  bypass_addr : Nat
  addr_width : Nat → Option Nat

/-- The `total_ir_val` / `total_ir_len` accumulation loop of
`JTAGRpi.access`: iterate device indices from highest to lowest; the
targeted device contributes the register address as opcode, every other one
its BYPASS opcode, shifted by the IR widths accumulated so far. -/
def total_ir (devices : List JTAGDevice) (device addr : Nat) : Nat × Nat :=
  devices.enum.reverse.foldl
    (fun acc p =>
      (acc.1 + ((if p.1 = device then addr else p.2.bypass_addr) <<< acc.2),
       acc.2 + p.2.ir_len))
    (0, 0)

/-- The command rows `JTAGRpi.access` assembles: an `ir` row tagged `id`
when `total_ir_val` differs from the cached `last_ir_val`, then always a
`dr` row of `dr_len + N - 1` bits whose value is the payload shifted left
by `N - 1 - device` for a write and `0` for a read. -/
def access_rows (devices : List JTAGDevice) (addr data device : Nat)
    (write : Bool) (last_ir : Int) : Option (List Row) := do
  let d ← devices[device]?
  let dr_len ← d.addr_width addr
  let k := devices.length - 1 - device
  let total_dr_len := dr_len + devices.length - 1
  let ti := total_ir devices device addr
  let dr_val := if write then data <<< k else 0
  let irRows : List Row :=
    if (ti.1 : Int) = last_ir then []
    else [{ chain := "ir", length := ti.2, value := ti.1, tag := some "id" }]
  some (irRows ++ [{ chain := "dr", length := total_dr_len, value := dr_val, tag := none }])

/-- `JTAGRpi.access`: assemble the rows, run them through the parser and
the TAP walker, cache `total_ir_val` in `last_ir_val`, pop the last walker
result and return it shifted right by `N - 1 - device` and masked to
`dr_len` bits, together with the final walker state. -/
def access (o : Nat → Bool) (fuel : Nat) (devices : List JTAGDevice)
    (addr data device : Nat) (write : Bool) (w : W) : Option (Nat × W) := do
  let d ← devices[device]?
  let dr_len ← d.addr_width addr
  let dr_mask := 2 ^ dr_len - 1
  let k := devices.length - 1 - device
  let rows ← access_rows devices addr data device write w.last_ir_val
  let w1 ← parse_rows o fuel rows w
  let w2 := { w1 with last_ir_val := ((total_ir devices device addr).1 : Int) }
  match w2.jtag_results.getLast? with
  | none => none
  | some raw =>
    some ((raw >>> k) &&& dr_mask, { w2 with jtag_results := w2.jtag_results.dropLast })

/-- Levels of the three output pins the XVC server drives. -/
structure Pins where
  tck : Bool
  tms : Bool
  tdi : Bool
deriving DecidableEq, Repr

/-- A combinational JTAG target for the XVC path: the TDO level read back
as a function of the currently driven output pins. -/
abbrev Target := Pins → Bool

/-- A target that shorts TDI to TDO: TDO always reads back the value most
recently written to the TDI output. -/
def shortTarget : Target := fun p => p.tdi

/-- `XVCServer.gpio_write`: drive TCK, TMS and TDI from integer levels. -/
def gpio_write (tck tms tdi : Nat) (_ : Pins) : Pins :=
  { tck := decide (tck ≠ 0), tms := decide (tms ≠ 0), tdi := decide (tdi ≠ 0) }

/-- `XVCServer.gpio_read`: 1 or 0 depending on the TDO level. -/
def gpio_read (tgt : Target) (p : Pins) : Nat :=
  if tgt p then 1 else 0

/-- `XVCServer.gpio_transfer`: for each bit index, drive TCK low with the
TMS/TDI bits, drive TCK high, sample TDO into the result at the same bit
index, and return TCK low. -/
def gpio_transfer (tgt : Target) (num_bits tms_data tdi_data : Nat)
    (p : Pins) : Nat × Pins :=
  (List.range num_bits).foldl
    (fun acc i =>
      let tms_bit := (tms_data >>> i) &&& 1
      let tdi_bit := (tdi_data >>> i) &&& 1
      let p1 := gpio_write 0 tms_bit tdi_bit acc.2
      let p2 := gpio_write 1 tms_bit tdi_bit p1
      let tdo_bit := gpio_read tgt p2
      let p3 := gpio_write 0 tms_bit tdi_bit p2
      (acc.1 ||| (tdo_bit <<< i), p3))
    (0, p)

/-- Little-endian 32-bit word of up to four bytes, modelling
`struct.unpack` of a 4-byte slice, or of a shorter tail slice padded with
zero bytes as in the remainder branch of `handle_shift`. -/
def unpack4 (l : List Nat) : Nat :=
  l.getD 0 0 + 256 * l.getD 1 0 + 65536 * l.getD 2 0 + 16777216 * l.getD 3 0

/-- Little-endian 4-byte encoding of a 32-bit word (`struct.pack`). -/
def pack4 (v : Nat) : List Nat :=
  [v % 256, v / 256 % 256, v / 65536 % 256, v / 16777216 % 256]

/-- The chunking loop of `XVCServer.handle_shift`: process 32 bits at a
time while at least 4 bytes and 32 bits remain, then one final chunk of the
remaining bits; each chunk's TDO word is appended to the result buffer. -/
def shift_loop (tgt : Target) (buffer : List Nat) (num_bytes : Nat)
    (bytes_left bits_left byte_index : Nat) (result : List Nat) (p : Pins) :
    List Nat × Pins :=
  if bytes_left = 0 then (result, p)
  else if _h4 : 4 ≤ bytes_left ∧ 32 ≤ bits_left then
    let tms := unpack4 ((buffer.drop byte_index).take 4)
    let tdi := unpack4 ((buffer.drop (byte_index + num_bytes)).take 4)
    let r := gpio_transfer tgt 32 tms tdi p
    shift_loop tgt buffer num_bytes (bytes_left - 4) (bits_left - 32)
      (byte_index + 4) (result ++ pack4 r.1) r.2
  else
    let tms := unpack4 ((buffer.drop byte_index).take bytes_left)
    let tdi := unpack4 ((buffer.drop (byte_index + num_bytes)).take bytes_left)
    let r := gpio_transfer tgt bits_left tms tdi p
    (result ++ (pack4 r.1).take bytes_left, r.2)
termination_by bytes_left
decreasing_by omega

/-- `XVCServer.handle_shift`: pre-roll the pins, run the chunking loop over
the TMS and TDI halves of the payload, post-roll, and return the TDO
buffer. -/
def handle_shift (tgt : Target) (length : Nat) (buffer : List Nat)
    (p : Pins) : List Nat × Pins :=
  let num_bytes := (length + 7) / 8
  let p0 := gpio_write 0 1 1 p
  let r := shift_loop tgt buffer num_bytes num_bytes length 0 [] p0
  (r.1, gpio_write 0 1 0 r.2)

/-- Reply bytes of the `getinfo` command. -/
def getinfo_bytes : List Nat :=
  "xvcServer_v1.0:2048\n".data.map Char.toNat

/-- `XVCServer.handle_client` over a byte stream: dispatch on the 2-byte
prefix, read each command's remaining bytes exactly (`safe_read` succeeds
iff enough bytes remain), collect the replies in order, and stop - closing
the connection - on an unknown prefix, an oversized shift payload, or an
exhausted stream. The pin state is threaded through the shift commands. -/
def handle_client (tgt : Target) (s : List Nat) (p : Pins) :
    List (List Nat) × Pins :=
  if h2 : 2 ≤ s.length then
    let pre := s.take 2
    let rest := s.drop 2
    if pre = [103, 101] then
      if _h6 : 6 ≤ rest.length then
        let out := handle_client tgt (rest.drop 6) p
        (getinfo_bytes :: out.1, out.2)
      else ([], p)
    else if pre = [115, 101] then
      if _h9 : 9 ≤ rest.length then
        let period := (rest.take 9).drop 5
        let out := handle_client tgt (rest.drop 9) p
        (period :: out.1, out.2)
      else ([], p)
    else if pre = [115, 104] then
      if hi : 4 ≤ rest.length then
        let rest2 := rest.drop 4
        if hl : 4 ≤ rest2.length then
          let len := unpack4 (rest2.take 4)
          let rest3 := rest2.drop 4
          let num_bytes := (len + 7) / 8
          let buffer_size := num_bytes * 2
          if 4096 < buffer_size then ([], p)
          else if _hb : buffer_size ≤ rest3.length then
            let r := handle_shift tgt len (rest3.take buffer_size) p
            let out := handle_client tgt (rest3.drop buffer_size) r.2
            (r.1 :: out.1, out.2)
          else ([], p)
        else ([], p)
      else ([], p)
    else ([], p)
  else ([], p)
termination_by s.length
decreasing_by all_goals simp [List.length_drop]; omega

/-- The accept loop of `XVCServer.start_server`, at the level of whole
client sessions: each accepted client is handled to completion and the
loop moves on to the next, the pin state persisting across clients. -/
def serve (tgt : Target) : List (List Nat) → Pins → List (List (List Nat)) × Pins
  | [], p => ([], p)
  | c :: cs, p =>
    let r := handle_client tgt c p
    let out := serve tgt cs r.2
    (r.1 :: out.1, out.2)

/-- An all-zero TDO oracle, used for concrete runs. -/
def oFalse : Nat → Bool := fun _ => false

/-- A concrete walker state resting in Run-Test/Idle with nothing pending
and a non-sentinel IR cache, used as input of concrete runs. -/
def wIdle : W :=
  { state := .RUN_TEST_IDLE, jtag_legs := [], cur_leg := none, tdo_vect := [],
    do_pause := false, readout := false, jtag_results := [], readdata := 0,
    last_ir_val := 5, tms_reset_num := 7, trace := [], cycle := 0 }

theorem syncs_eq (o : Nat → Bool) (tdi tms : Bool) (n : Nat) (w : W) :
    syncs o tdi tms n w =
      { w with trace := w.trace ++ List.replicate n (tdi, tms),
               cycle := w.cycle + n } := by
  induction n generalizing w with
  | zero => simp [syncs]
  | succ n ih =>
    simp only [syncs, phy_sync, ih, List.replicate_succ]
    simp [List.append_assoc]
    omega

theorem jtag_step_rti_pop (o : Nat → Bool) (w : W) (l : Leg) (ls : List Leg)
    (hs : w.state = .RUN_TEST_IDLE) (hc : w.cur_leg = none)
    (hl : w.jtag_legs = l :: ls) :
    jtag_step o w = some { w with cur_leg := some l, jtag_legs := ls } := by
  simp [jtag_step, hs, hc, hl]

theorem jtag_step_rs_none (o : Nat → Bool) (w : W) (l : Leg)
    (hs : w.state = .RUN_TEST_IDLE) (hc : w.cur_leg = some l)
    (hk : l.kind = .RS) (hl : w.jtag_legs = []) :
    jtag_step o w = some { w with
      state := .TEST_LOGIC_RESET, last_ir_val := -1, cur_leg := none,
      trace := w.trace ++ List.replicate w.tms_reset_num (false, true),
      cycle := w.cycle + w.tms_reset_num } := by
  simp [jtag_step, hs, hc, hk, syncs_eq, hl]

theorem jtag_step_rs_cons (o : Nat → Bool) (w : W) (l l2 : Leg) (ls : List Leg)
    (hs : w.state = .RUN_TEST_IDLE) (hc : w.cur_leg = some l)
    (hk : l.kind = .RS) (hl : w.jtag_legs = l2 :: ls) :
    jtag_step o w = some { w with
      state := .TEST_LOGIC_RESET, last_ir_val := -1, cur_leg := some l2,
      jtag_legs := ls,
      trace := w.trace ++ List.replicate w.tms_reset_num (false, true),
      cycle := w.cycle + w.tms_reset_num } := by
  simp [jtag_step, hs, hc, hk, syncs_eq, hl]

theorem jtag_step_tlr_empty (o : Nat → Bool) (w : W)
    (hs : w.state = .TEST_LOGIC_RESET) (hl : w.jtag_legs = []) :
    jtag_step o w = some w := by
  simp [jtag_step, hs, hl]

theorem jtag_step_tlr_pending (o : Nat → Bool) (w : W)
    (hs : w.state = .TEST_LOGIC_RESET) (hl : w.jtag_legs ≠ []) :
    jtag_step o w = some { w with
      state := .RUN_TEST_IDLE, last_ir_val := -1,
      trace := w.trace ++ [(false, false)], cycle := w.cycle + 1 } := by
  simp [jtag_step, hs, phy_sync, List.length_eq_zero, hl]

theorem process_command_done (o : Nat → Bool) (fuel : Nat) (w : W)
    (hl : w.jtag_legs = []) : process_command o fuel w = some w := by
  cases fuel <;> simp [process_command, hl]

theorem process_command_succ (o : Nat → Bool) (fuel : Nat) (w : W)
    (hl : w.jtag_legs ≠ []) :
    process_command o (fuel + 1) w =
      match jtag_next o fuel w with
      | none => none
      | some w1 => process_command o fuel w1 := by
  simp [process_command, hl]

theorem loopA_succ_idle (o : Nat → Bool) (fuel : Nat) (w : W)
    (hs : idleState w.state) :
    loopA o (fuel + 1) w =
      match jtag_step o w with
      | none => none
      | some w1 => if w1.cur_leg = none then some w1 else loopA o fuel w1 := by
  simp [loopA, hs]

theorem loopA_not_idle (o : Nat → Bool) (fuel : Nat) (w : W)
    (hs : ¬ idleState w.state) : loopA o fuel w = some w := by
  cases fuel <;> simp [loopA, hs]

theorem loopB_idle (o : Nat → Bool) (fuel : Nat) (w : W)
    (hs : idleState w.state) : loopB o fuel w = some w := by
  cases fuel <;> simp [loopB, hs]

theorem loopB_succ_not_idle (o : Nat → Bool) (fuel : Nat) (w : W)
    (hs : ¬ idleState w.state) :
    loopB o (fuel + 1) w =
      match jtag_step o w with
      | none => none
      | some w1 => loopB o fuel w1 := by
  simp [loopB, hs]

theorem jtag_next_busy (o : Nat → Bool) (fuel : Nat) (w : W)
    (hs : idleState w.state) (hl : w.jtag_legs ≠ []) :
    jtag_next o fuel w =
      match loopA o fuel w with
      | none => none
      | some w1 => loopB o fuel w1 := by
  simp [jtag_next, hs, hl]

theorem parse_append_rs :
    parse_append [{ chain := "rs", length := 0, value := 0, tag := none }] [] =
      some [⟨.RS, [false], "0"⟩] := by
  decide

/-- C6 (amended): running the single row `rs, 0, 0` with the default
`tms_reset_num = 7` from Run-Test/Idle with no pending legs issues exactly
7 `phy_sync(0,1)` cycles - each cycle writing TCK=0, TDI=0, TMS=1, then
TCK=1, then TCK=0 - and clears `last_ir_val` to its sentinel `-1`; but the
walker is left in state TEST_LOGIC_RESET, not RUN_TEST_IDLE as claimed
(the TEST_LOGIC_RESET branch only moves on when further legs are
pending). -/
theorem c6_tms_reset (o : Nat → Bool) (w : W) (fuel : Nat)
    (hw : w.state = .RUN_TEST_IDLE) (hf : 3 ≤ fuel) :
    reset_fsm o fuel 7 w = some { w with
      tms_reset_num := 7, jtag_legs := [], cur_leg := none, jtag_results := [],
      state := .TEST_LOGIC_RESET, last_ir_val := -1,
      trace := w.trace ++ List.replicate 7 (false, true),
      cycle := w.cycle + 7 }
    ∧ pinTrace (List.replicate 7 (false, true)) =
        (List.replicate 7 [(Pin.TCK, false), (Pin.TDI, false), (Pin.TMS, true),
                           (Pin.TCK, true), (Pin.TCK, false)]).flatten := by
  constructor
  · obtain ⟨f, rfl⟩ : ∃ f, fuel = f + 3 := ⟨fuel - 3, by omega⟩
    simp [reset_fsm, parse_rows, parse_append_rs, process_command, jtag_next,
          idleState, hw, loopA, loopB, jtag_step, phy_sync, syncs_eq]
  · decide

theorem c6_tms_reset_witness :
    reset_fsm oFalse 10 7 wIdle = some { wIdle with
      tms_reset_num := 7, jtag_legs := [], cur_leg := none, jtag_results := [],
      state := .TEST_LOGIC_RESET, last_ir_val := -1,
      trace := wIdle.trace ++ List.replicate 7 (false, true),
      cycle := wIdle.cycle + 7 }
    ∧ pinTrace (List.replicate 7 (false, true)) =
        (List.replicate 7 [(Pin.TCK, false), (Pin.TDI, false), (Pin.TMS, true),
                           (Pin.TCK, true), (Pin.TCK, false)]).flatten :=
  c6_tms_reset oFalse wIdle 10 rfl (by decide)

/-- C6 counterexample: on the concrete idle state `wIdle`, running the row
`rs, 0, 0` with the default `tms_reset_num = 7` leaves the walker in state
TEST_LOGIC_RESET, which is not the RUN_TEST_IDLE state the claim
asserts. -/
theorem c6_counterexample :
    (reset_fsm oFalse 10 7 wIdle).map (fun v => v.state) =
      some JtagState.TEST_LOGIC_RESET
    ∧ JtagState.TEST_LOGIC_RESET ≠ JtagState.RUN_TEST_IDLE := by
  decide

/-- A concrete walker state about to process the leg queue
`[IRP "0", DR "0"]` from Run-Test/Idle. -/
def wIrpDr : W :=
  { wIdle with jtag_legs := [⟨.IRP, [false], " "⟩, ⟨.DR, [false], " "⟩] }

/-- C7 (amended): when a leg's Update is reached and the head of the
pending queue is a DR leg (the `[IRP leg, DR leg]` scenario, where the
completed IRP leg's Update sees the DR head), the walker takes the
shortcut with exactly ONE `phy_sync(0,1)` cycle and moves directly to
SelectScan for the DR leg, never entering RunTestIdle in between; the
extra wait-state-bypass cycle of the claim is NOT issued - the code only
issues it when the pending head is itself an IRP or IRD leg. -/
theorem c7_update_head_dr (o : Nat → Bool) (w : W) (head : Leg) (rest : List Leg)
    (hs : w.state = .UPDATE) (htv : w.tdo_vect ≠ [])
    (hl : w.jtag_legs = head :: rest) (hk : head.kind = .DR) :
    jtag_step o w = some { w with
      state := .SELECT_SCAN,
      jtag_results := w.jtag_results ++ [binVal w.tdo_vect],
      readdata := if w.readout then binVal w.tdo_vect else w.readdata,
      readout := false,
      tdo_vect := [], cur_leg := some head, jtag_legs := rest,
      trace := w.trace ++ [(false, true)], cycle := w.cycle + 1 } := by
  cases htv' : w.tdo_vect with
  | nil => exact absurd htv' htv
  | cons b tv =>
    cases hro : w.readout <;>
      simp [jtag_step, hs, hl, hk, phy_sync, hro, htv']

theorem c7_update_head_dr_witness :
    jtag_step oFalse { wIdle with
        state := .UPDATE, tdo_vect := [true],
        jtag_legs := [⟨.DR, [false], " "⟩] } =
      some { { wIdle with
        state := .UPDATE, tdo_vect := [true],
        jtag_legs := [⟨.DR, [false], " "⟩] } with
        state := .SELECT_SCAN,
        jtag_results := [] ++ [binVal [true]],
        readdata := if false then binVal [true] else 0,
        readout := false,
        tdo_vect := [], cur_leg := some ⟨.DR, [false], " "⟩, jtag_legs := [],
        trace := [] ++ [(false, true)], cycle := 0 + 1 } :=
  c7_update_head_dr oFalse _ ⟨.DR, [false], " "⟩ [] rfl (by decide) rfl rfl

/-- C7 counterexample: running the queue `[IRP "0", DR "0"]` concretely,
after 8 steps the walker is at the IRP leg's Update; the next `jtag_step`
enters SelectScan having issued exactly 1 `phy_sync` cycle, not the 2
cycles (wait-state bypass plus transition cycle) the claim asserts. -/
theorem c7_counterexample :
    ((stepN oFalse 8 wIrpDr).bind (fun wu =>
       (jtag_step oFalse wu).map (fun v => (wu.state, v.state, v.cycle - wu.cycle)))) =
      some (JtagState.UPDATE, JtagState.SELECT_SCAN, 1)
    ∧ (1 : Nat) ≠ 2 := by
  decide

/-- A concrete two-entry catalog device: IR width 2, BYPASS opcode 3,
every register 4 bits wide. -/
def devC3 : JTAGDevice :=
  { ir_len := 2, bypass_addr := 3, addr_width := fun _ => some 4 }

/-- C3 (amended): for a chain of two devices with target `device_index 0`,
the `total_ir_val` assembled by `access` concatenates device 1's BYPASS
opcode in the LOW bits and device 0's opcode in the HIGH bits:
`total_ir_val = BYPASS_1 ||| (opcode_0 <<< ir_len_1)` - the reverse of the
claim's placement (the accumulation loop runs from the highest device
index down, so the highest index lands in the low bits, and the shift
amount is device 1's IR width). -/
theorem c3_ir_concat (d0 d1 : JTAGDevice) (addr : Nat)
    (hb : d1.bypass_addr < 2 ^ d1.ir_len) :
    total_ir [d0, d1] 0 addr =
      (d1.bypass_addr ||| (addr <<< d1.ir_len), d1.ir_len + d0.ir_len)
    ∧ ∀ data : Nat, ∀ write : Bool, ∀ last : Int, ∀ dr_len : Nat,
        d0.addr_width addr = some dr_len →
        ((total_ir [d0, d1] 0 addr).1 : Int) ≠ last →
        (access_rows [d0, d1] addr data 0 write last).map List.head? =
          some (some { chain := "ir", length := d1.ir_len + d0.ir_len,
                       value := d1.bypass_addr ||| (addr <<< d1.ir_len),
                       tag := some "id" }) := by
  have hv : total_ir [d0, d1] 0 addr =
      (d1.bypass_addr ||| (addr <<< d1.ir_len), d1.ir_len + d0.ir_len) := by
    have : d1.bypass_addr + addr <<< d1.ir_len =
        d1.bypass_addr ||| (addr <<< d1.ir_len) := by
      rw [Nat.shiftLeft_eq, Nat.mul_comm, Nat.add_comm,
          Nat.mul_add_lt_is_or hb addr, Nat.lor_comm]
    simp [total_ir, List.enum, List.enumFrom, Nat.shiftLeft_zero, this]
  refine ⟨hv, ?_⟩
  intro data write last dr_len hw hne
  simp [access_rows, hw, hv] at hne ⊢
  rw [if_neg (by exact fun h => hne h)]
  simp [hv]

theorem c3_ir_concat_witness :
    total_ir [devC3, devC3] 0 1 =
      (devC3.bypass_addr ||| (1 <<< devC3.ir_len), devC3.ir_len + devC3.ir_len)
    ∧ (access_rows [devC3, devC3] 1 0 0 true (-1)).map List.head? =
        some (some { chain := "ir", length := devC3.ir_len + devC3.ir_len,
                     value := devC3.bypass_addr ||| (1 <<< devC3.ir_len),
                     tag := some "id" }) :=
  ⟨(c3_ir_concat devC3 devC3 1 (by decide)).1,
   (c3_ir_concat devC3 devC3 1 (by decide)).2 0 true (-1) 4 (by decide) (by decide)⟩

/-- C3 counterexample: with two devices of IR width 2 and BYPASS opcode 3
and opcode 1 for device 0, the code assembles `total_ir_val = 7`
(`3 ||| (1 <<< 2)`), not the `13` (`1 ||| (3 <<< 2)`) the claim's formula
`opcode_0 | (BYPASS_1 << ir_len_0)` gives. -/
theorem c3_counterexample :
    (access_rows [devC3, devC3] 1 0 0 true (-1)).map
        (fun rows =>
          (rows.headD { chain := "", length := 0, value := 0, tag := none }).value) =
      some 7
    ∧ (7 : Nat) ≠ 1 ||| (3 <<< 2) := by
  decide

/-- The TDO samples of `n` consecutive cycles starting at cycle `c`. -/
def samples (o : Nat → Bool) (c n : Nat) : List Bool :=
  (List.range n).map (fun i => o (c + i))

/-- The `(tdi, tms)` cycles the SHIFT phase emits for a bit string: the
bits from the last character backwards with TMS=0, and finally the first
character with TMS=1. -/
def shiftTrace (bs : List Bool) : List (Bool × Bool) :=
  ((bs.drop 1).reverse.map (fun b => (b, false))) ++ [(bs.headD false, true)]

theorem samples_succ (o : Nat → Bool) (c n : Nat) :
    samples o c (n + 1) = o c :: samples o (c + 1) n := by
  simp only [samples, List.range_succ_eq_map, List.map_cons, List.map_map,
             Nat.add_zero]
  refine congrArg _ (List.map_congr_left fun a _ => ?_)
  simp [Function.comp]
  ring_nf

theorem shiftTrace_concat (ys : List Bool) (y : Bool) (hys : ys ≠ []) :
    shiftTrace (ys ++ [y]) = (y, false) :: shiftTrace ys := by
  cases ys with
  | nil => exact absurd rfl hys
  | cons a ys' => simp [shiftTrace]

theorem stepN_add (o : Nat → Bool) (m n : Nat) (w : W) :
    stepN o (m + n) w = (stepN o m w).bind (stepN o n) := by
  induction m generalizing w with
  | zero => simp [stepN]
  | succ m ih =>
    have : m + 1 + n = (m + n) + 1 := by omega
    rw [this]
    simp only [stepN]
    cases jtag_step o w with
    | none => simp
    | some w1 => simp [ih]

theorem jtag_step_select (o : Nat → Bool) (w : W) (hs : w.state = .SELECT_SCAN) :
    jtag_step o w = some { w with
      state := .CAPTURE, trace := w.trace ++ [(false, false)],
      cycle := w.cycle + 1 } := by
  simp [jtag_step, hs, phy_sync]

theorem jtag_step_capture (o : Nat → Bool) (w : W) (hs : w.state = .CAPTURE) :
    jtag_step o w = some { w with
      state := .SHIFT, tdo_vect := [], trace := w.trace ++ [(false, false)],
      cycle := w.cycle + 1 } := by
  simp [jtag_step, hs, phy_sync]

theorem jtag_step_shift_cons (o : Nat → Bool) (w : W) (leg : Leg)
    (hs : w.state = .SHIFT) (hc : w.cur_leg = some leg)
    (h1 : leg.kind ≠ .DRC) (h2 : leg.kind ≠ .DRS)
    (hlen : 1 < leg.bits.length) :
    jtag_step o w = some { w with
      cur_leg := some { leg with bits := leg.bits.dropLast },
      tdo_vect := o w.cycle :: w.tdo_vect,
      trace := w.trace ++ [(leg.bits.getLastD false, false)],
      cycle := w.cycle + 1 } := by
  simp [jtag_step, hs, hc, h1, h2, hlen, phy_sync]

theorem jtag_step_shift_last (o : Nat → Bool) (w : W) (leg : Leg) (b : Bool)
    (hs : w.state = .SHIFT) (hc : w.cur_leg = some leg)
    (h1 : leg.kind ≠ .DRC) (h2 : leg.kind ≠ .DRS)
    (hbits : leg.bits = [b]) :
    jtag_step o w = some { w with
      state := .EXIT1, cur_leg := none,
      tdo_vect := o w.cycle :: w.tdo_vect,
      trace := w.trace ++ [(b, true)], cycle := w.cycle + 1 } := by
  simp [jtag_step, hs, hc, h1, h2, hbits, phy_sync]

theorem jtag_step_exit1_nopause (o : Nat → Bool) (w : W)
    (hs : w.state = .EXIT1) (hp : w.do_pause = false) :
    jtag_step o w = some { w with
      state := .UPDATE, trace := w.trace ++ [(false, true)],
      cycle := w.cycle + 1 } := by
  simp [jtag_step, hs, hp, phy_sync]

theorem jtag_step_exit1_pause (o : Nat → Bool) (w : W)
    (hs : w.state = .EXIT1) (hp : w.do_pause = true) :
    jtag_step o w = some { w with
      state := .PAUSE, do_pause := false,
      trace := w.trace ++ [(false, false)], cycle := w.cycle + 1 } := by
  simp [jtag_step, hs, hp, phy_sync]

theorem jtag_step_pause (o : Nat → Bool) (w : W) (hs : w.state = .PAUSE) :
    jtag_step o w = some { w with
      state := .EXIT2, trace := w.trace ++ [(false, true)],
      cycle := w.cycle + 1 } := by
  simp [jtag_step, hs, phy_sync]

theorem jtag_step_exit2 (o : Nat → Bool) (w : W) (hs : w.state = .EXIT2) :
    jtag_step o w = some { w with
      state := .UPDATE, trace := w.trace ++ [(false, true)],
      cycle := w.cycle + 1 } := by
  simp [jtag_step, hs, phy_sync]

theorem shift_run (o : Nat → Bool) (K : Nat) : ∀ (w : W) (leg : Leg),
    w.state = .SHIFT → w.cur_leg = some leg →
    leg.kind ≠ .DRC → leg.kind ≠ .DRS →
    leg.bits.length = K → K ≠ 0 →
    stepN o K w = some { w with
      state := .EXIT1, cur_leg := none,
      tdo_vect := (samples o w.cycle K).reverse ++ w.tdo_vect,
      trace := w.trace ++ shiftTrace leg.bits,
      cycle := w.cycle + K } := by
  induction K with
  | zero => intro w leg _ _ _ _ _ h0; exact absurd rfl h0
  | succ K ih =>
    intro w leg hs hc h1 h2 hK _
    by_cases hK0 : K = 0
    · subst hK0
      obtain ⟨b, hb⟩ := List.length_eq_one.mp hK
      simp only [stepN, jtag_step_shift_last o w leg b hs hc h1 h2 hb]
      simp [samples, shiftTrace, hb, List.range_succ]
    · have hlen : 1 < leg.bits.length := by omega
      have hstep := jtag_step_shift_cons o w leg hs hc h1 h2 hlen
      simp only [stepN, hstep]
      obtain ⟨ys, y, hbs⟩ : ∃ ys y, leg.bits = ys ++ [y] := by
        rcases List.eq_nil_or_concat leg.bits with h | ⟨ys, y, h⟩
        · rw [h] at hK; simp at hK
        · exact ⟨ys, y, by simpa [List.concat_eq_append] using h⟩
      have hys : ys ≠ [] := by
        intro h; rw [h] at hbs; rw [hbs] at hK; simp at hK; omega
      have hdl : leg.bits.dropLast = ys := by rw [hbs, List.dropLast_concat]
      have hlast : leg.bits.getLastD false = y := by
        rw [hbs]; exact List.getLastD_concat _ _ _
      rw [ih _ { leg with bits := leg.bits.dropLast } (by simp [hs]) rfl h1 h2
            (by simp [hdl, hbs] at hK ⊢; omega) hK0]
      rw [hdl, hlast, hbs, shiftTrace_concat ys y hys]
      simp only [samples_succ o w.cycle K, List.reverse_cons]
      simp [List.append_assoc]
      omega

theorem binVal_concat (l : List Bool) (b : Bool) :
    binVal (l ++ [b]) = 2 * binVal l + (if b then 1 else 0) := by
  simp [binVal, List.foldl_append]

theorem binVal_samples (o : Nat → Bool) (K : Nat) : ∀ c : Nat,
    binVal ((samples o c K).reverse) =
      ∑ i in Finset.range K, (if o (c + i) then 2 ^ i else 0) := by
  induction K with
  | zero => intro c; simp [samples, binVal]
  | succ K ih =>
    intro c
    rw [samples_succ, List.reverse_cons, binVal_concat, ih (c + 1),
        Finset.sum_range_succ', Finset.mul_sum]
    have h0 : (if o c then 1 else 0) = (if o (c + 0) then 2 ^ 0 else 0) := by
      simp
    rw [h0]
    refine congrArg (· + _) (Finset.sum_congr rfl fun i _ => ?_)
    have : c + 1 + i = c + (i + 1) := by omega
    rw [this]
    split <;> ring

theorem jtag_step_update_results (o : Nat → Bool) (w : W)
    (hs : w.state = .UPDATE) (htv : w.tdo_vect ≠ []) :
    (jtag_step o w).map (fun v => v.jtag_results) =
      some (w.jtag_results ++ [binVal w.tdo_vect]) := by
  cases htv' : w.tdo_vect with
  | nil => exact absurd htv' htv
  | cons b tv =>
    cases hl : w.jtag_legs with
    | nil => cases hro : w.readout <;> simp [jtag_step, hs, htv', hl, hro, phy_sync]
    | cons head rest =>
      cases hk : head.kind <;> cases hro : w.readout <;>
        simp [jtag_step, hs, htv', hl, hro, hk, phy_sync]

/-- C1: for a scan leg (DR/IR/IRP/IRD) of `K` bits run to completion from
SelectScan, the walker spends two cycles reaching Shift, then the `K`
shift cycles at cycles `cycle+2 .. cycle+2+K-1` (the i-th shifted bit at
cycle `cycle+2+i`, as the trace shows), and the integer appended to
`jtag_results` at Update is the sum over `i` of `tdo_i * 2^i` where
`tdo_i` is the TDO sample of the cycle that shifted bit `i` - bit 0
shifted first, occupying the least significant bit. -/
theorem c1_tdo_ordering (o : Nat → Bool) (w : W) (leg : Leg) (K : Nat)
    (hs : w.state = .SELECT_SCAN) (hc : w.cur_leg = some leg)
    (hk : leg.kind = .DR ∨ leg.kind = .IR ∨ leg.kind = .IRP ∨ leg.kind = .IRD)
    (hK : leg.bits.length = K) (hK0 : K ≠ 0) :
    ∃ wS w',
      stepN o (2 + K) w = some wS ∧
      wS.state = .EXIT1 ∧
      wS.trace = w.trace ++ ((false, false) :: (false, false) :: shiftTrace leg.bits) ∧
      wS.cycle = w.cycle + 2 + K ∧
      wS.tdo_vect = (samples o (w.cycle + 2) K).reverse ∧
      stepN o (if w.do_pause then 4 else 2) wS = some w' ∧
      w'.jtag_results = w.jtag_results ++
        [∑ i in Finset.range K, if o (w.cycle + 2 + i) then 2 ^ i else 0] := by
  have hk1 : leg.kind ≠ .DRC := by rcases hk with h | h | h | h <;> simp [h]
  have hk2 : leg.kind ≠ .DRS := by rcases hk with h | h | h | h <;> simp [h]
  have h2 : stepN o 2 w = some { w with
      state := .SHIFT, tdo_vect := [],
      trace := (w.trace ++ [(false, false)]) ++ [(false, false)],
      cycle := w.cycle + 1 + 1 } := by
    simp only [stepN, jtag_step_select o w hs]
    rw [jtag_step_capture o _ rfl]
  set w2 : W := { w with
      state := .SHIFT, tdo_vect := [],
      trace := (w.trace ++ [(false, false)]) ++ [(false, false)],
      cycle := w.cycle + 1 + 1 } with hw2
  have hrun := shift_run o K w2 leg rfl hc hk1 hk2 hK hK0
  have hSN : stepN o (2 + K) w = some { w2 with
      state := .EXIT1, cur_leg := none,
      tdo_vect := (samples o w2.cycle K).reverse ++ w2.tdo_vect,
      trace := w2.trace ++ shiftTrace leg.bits,
      cycle := w2.cycle + K } := by
    rw [stepN_add, h2, Option.some_bind, hrun]
  set wS : W := { w2 with
      state := .EXIT1, cur_leg := none,
      tdo_vect := (samples o w2.cycle K).reverse ++ w2.tdo_vect,
      trace := w2.trace ++ shiftTrace leg.bits,
      cycle := w2.cycle + K } with hwS
  have hcyc : w2.cycle = w.cycle + 2 := rfl
  refine ⟨wS, ?_⟩
  have hpause : wS.do_pause = w.do_pause := rfl
  have htdoS : wS.tdo_vect = (samples o (w.cycle + 2) K).reverse := by
    simp [hwS, hcyc]
  have hvS : binVal wS.tdo_vect =
      ∑ i in Finset.range K, if o (w.cycle + 2 + i) then 2 ^ i else 0 := by
    rw [htdoS, binVal_samples]
  have htvne : (samples o (w.cycle + 2) K).reverse ≠ [] := by
    simp [samples]
    omega
  cases hdp : w.do_pause with
  | false =>
    have e1 := jtag_step_exit1_nopause o wS rfl (by rw [hpause, hdp])
    set wU : W := { wS with
      state := .UPDATE, trace := wS.trace ++ [(false, true)],
      cycle := wS.cycle + 1 } with hwU
    have hres := jtag_step_update_results o wU rfl (by simpa using htvne)
    obtain ⟨w', hw', hres'⟩ := Option.map_eq_some'.mp hres
    refine ⟨w', hSN, rfl, by simp [hwS, hw2, List.append_assoc], by simp [hwS, hcyc], htdoS, ?_, ?_⟩
    · simp [stepN, e1, hw']
    · rw [hres']
      have hru : wU.jtag_results = w.jtag_results := rfl
      rw [hru]
      have htu : wU.tdo_vect = wS.tdo_vect := rfl
      rw [htu, hvS]
  | true =>
    have e1 := jtag_step_exit1_pause o wS rfl (by rw [hpause, hdp])
    set wP : W := { wS with
      state := .PAUSE, do_pause := false,
      trace := wS.trace ++ [(false, false)], cycle := wS.cycle + 1 } with hwP
    have e2 := jtag_step_pause o wP rfl
    set wE : W := { wP with
      state := .EXIT2, trace := wP.trace ++ [(false, true)],
      cycle := wP.cycle + 1 } with hwE
    have e3 := jtag_step_exit2 o wE rfl
    set wU : W := { wE with
      state := .UPDATE, trace := wE.trace ++ [(false, true)],
      cycle := wE.cycle + 1 } with hwU
    have hres := jtag_step_update_results o wU rfl (by simpa using htvne)
    obtain ⟨w', hw', hres'⟩ := Option.map_eq_some'.mp hres
    refine ⟨w', hSN, rfl, by simp [hwS, hw2, List.append_assoc], by simp [hwS, hcyc], htdoS, ?_, ?_⟩
    · simp [stepN, e1, e2, e3, hw']
    · rw [hres']
      have hru : wU.jtag_results = w.jtag_results := rfl
      rw [hru]
      have htu : wU.tdo_vect = wS.tdo_vect := rfl
      rw [htu, hvS]

/-- A varying concrete TDO oracle. -/
def oMod3 : Nat → Bool := fun n => n % 3 == 0

/-- A concrete walker state entering SelectScan with an active 2-bit DR
leg. -/
def wC1 : W :=
  { wIdle with state := .SELECT_SCAN, cur_leg := some ⟨.DR, [true, false], " "⟩ }

theorem c1_tdo_ordering_witness :
    ∃ wS w',
      stepN oMod3 (2 + 2) wC1 = some wS ∧
      wS.state = .EXIT1 ∧
      wS.trace = wC1.trace ++
        ((false, false) :: (false, false) :: shiftTrace [true, false]) ∧
      wS.cycle = wC1.cycle + 2 + 2 ∧
      wS.tdo_vect = (samples oMod3 (wC1.cycle + 2) 2).reverse ∧
      stepN oMod3 (if wC1.do_pause then 4 else 2) wS = some w' ∧
      w'.jtag_results = wC1.jtag_results ++
        [∑ i in Finset.range 2, if oMod3 (wC1.cycle + 2 + i) then 2 ^ i else 0] :=
  c1_tdo_ordering oMod3 wC1 ⟨.DR, [true, false], " "⟩ 2 rfl rfl (Or.inl rfl)
    rfl (by decide)

theorem loopA_succ_step (o : Nat → Bool) (fuel : Nat) (w w1 : W)
    (hs : idleState w.state) (hstep : jtag_step o w = some w1)
    (hc : w1.cur_leg ≠ none) :
    loopA o (fuel + 1) w = loopA o fuel w1 := by
  rw [loopA_succ_idle o fuel w hs, hstep]
  simp [hc]

theorem loopA_spin (o : Nat → Bool) (fuel : Nat) (w : W)
    (hs : w.state = .TEST_LOGIC_RESET) (hl : w.jtag_legs = [])
    (hc : w.cur_leg ≠ none) :
    loopA o fuel w = none := by
  induction fuel with
  | zero => simp [loopA, idleState, hs]
  | succ f ih =>
    rw [loopA_succ_step o f w w (by simp [idleState, hs])
          (jtag_step_tlr_empty o w hs hl) hc]
    exact ih

/-- A concrete pending queue `[RS leg, DR leg]` resting in Run-Test/Idle:
the TMS-reset row followed by a single one-bit DR scan row, exactly what
`parse_rows` builds for the batch `rs,0,0 / dr,1,0`. -/
def wRSDR : W :=
  { wIdle with jtag_legs := [⟨.RS, [false], "0"⟩, ⟨.DR, [false], " "⟩] }

/-- C9: `process_command` does NOT terminate for every well-formed queue -
when an RS leg is followed by exactly one further leg, the RS branch pops
that leg into `cur_leg` while emptying the queue, after which the
TEST_LOGIC_RESET branch does nothing forever (it only acts when legs are
pending), so the first loop of `jtag_next` spins: no amount of fuel makes
`process_command` return. Stated for any state whose queue is
`[RS leg, any leg]` with no active leg, hence for the concrete `wRSDR`. -/
theorem c9_rs_hang (o : Nat → Bool) (w : W) (l1 l2 : Leg)
    (hs : w.state = .RUN_TEST_IDLE) (hc : w.cur_leg = none)
    (hk : l1.kind = .RS) (hl : w.jtag_legs = [l1, l2]) :
    ∀ fuel, process_command o fuel w = none := by
  have hA : ∀ f, loopA o f w = none := by
    intro f
    match f with
    | 0 => simp [loopA, idleState, hs]
    | 1 =>
      rw [loopA_succ_step o 0 w _ (by simp [idleState, hs])
            (jtag_step_rti_pop o w l1 [l2] hs hc hl) (by simp)]
      simp [loopA, idleState, hs]
    | g + 2 =>
      rw [loopA_succ_step o (g + 1) w _ (by simp [idleState, hs])
            (jtag_step_rti_pop o w l1 [l2] hs hc hl) (by simp)]
      rw [loopA_succ_step o g _ _ (by simp [idleState, hs])
            (jtag_step_rs_cons o _ l1 l2 [] (by simp [hs]) rfl hk rfl)
            (by simp)]
      exact loopA_spin o g _ rfl rfl (by simp)
  intro fuel
  match fuel with
  | 0 => simp [process_command, hl]
  | f + 1 =>
    rw [process_command_succ o f w (by simp [hl]),
        jtag_next_busy o f w (by simp [idleState, hs]) (by simp [hl])]
    rw [hA f]

theorem c9_rs_hang_witness : process_command oFalse 1000 wRSDR = none :=
  c9_rs_hang oFalse wRSDR ⟨.RS, [false], "0"⟩ ⟨.DR, [false], " "⟩
    rfl rfl rfl rfl 1000

theorem binVal_replicate_false (k : Nat) (l : List Bool) :
    binVal (List.replicate k false ++ l) = binVal l := by
  induction k with
  | zero => simp
  | succ n ih => simpa [binVal, List.replicate_succ] using ih

theorem natBitsAux_val (fuel : Nat) : ∀ n, n ≤ fuel →
    binVal ((natBitsAux fuel n).reverse) = n := by
  induction fuel with
  | zero =>
    intro n h
    have : n = 0 := by omega
    simp [this, natBitsAux, binVal]
  | succ f ih =>
    intro n h
    by_cases h0 : n = 0
    · simp [h0, natBitsAux, binVal]
    · rw [natBitsAux, if_neg h0]
      rw [List.reverse_cons, binVal_concat, ih (n / 2) (by omega)]
      rcases Nat.mod_two_eq_zero_or_one n with h2 | h2 <;> simp [h2] <;> omega

theorem natBitsAux_length (fuel : Nat) : ∀ n len, n ≤ fuel → n < 2 ^ len →
    (natBitsAux fuel n).length ≤ len := by
  induction fuel with
  | zero =>
    intro n len h _
    have : n = 0 := by omega
    simp [this, natBitsAux]
  | succ f ih =>
    intro n len h hlt
    by_cases h0 : n = 0
    · simp [h0, natBitsAux]
    · rw [natBitsAux, if_neg h0]
      have hlen : len ≠ 0 := by
        intro hl
        rw [hl] at hlt
        omega
      have hdiv : n / 2 < 2 ^ (len - 1) := by
        have h2 : (2 : Nat) ^ len = 2 ^ (len - 1) * 2 := by
          rw [← pow_succ]
          congr 1
          omega
        rw [Nat.div_lt_iff_lt_mul (by omega)]
        omega
      have := ih (n / 2) (len - 1) (by omega) hdiv
      simp only [List.length_cons]
      omega

theorem padBits_val (len v : Nat) : binVal (padBits len v) = v := by
  rw [padBits, binVal_replicate_false]
  by_cases h0 : v = 0
  · simp [h0, natDigits, binVal]
  · rw [natDigits, if_neg h0]
    exact natBitsAux_val v v le_rfl

theorem padBits_length (len v : Nat) (hlen : 0 < len) (hv : v < 2 ^ len) :
    (padBits len v).length = len := by
  have hd : (natDigits v).length ≤ len := by
    by_cases h0 : v = 0
    · simp [h0, natDigits]
      omega
    · rw [natDigits, if_neg h0, List.length_reverse]
      exact natBitsAux_length v v len le_rfl hv
  simp [padBits]
  omega

theorem parse_row_dr (L v : Nat) :
    parse_row { chain := "dr", length := L, value := v, tag := none } =
      some (some ⟨.DR, padBits L v, " "⟩) := by
  rfl

/-- C2: for a chain of `N ≥ 1` devices, a target `device < N` whose
register `addr` has width `dr_len ≥ 1`, and a payload `p < 2^dr_len`,
`access` assembles as its final row a single DR row of
`total_dr_len = dr_len + N - 1` bits whose value is `p <<< (N - 1 - device)`
for a write (`0` for a read); that row parses into a DR leg of exactly
`total_dr_len` bits with that TDI-facing value; and whenever the walker
run succeeds with final result `raw` popped from `jtag_results`, `access`
returns `(raw >>> (N - 1 - device)) &&& (2^dr_len - 1)`. -/
theorem c2_chain_access (o : Nat → Bool) (fuel : Nat)
    (devices : List JTAGDevice) (addr p device dr_len : Nat) (d : JTAGDevice)
    (write : Bool) (w : W) (rows : List Row) (wr : W) (rs : List Nat) (raw : Nat)
    (hd : devices[device]? = some d)
    (hw : d.addr_width addr = some dr_len)
    (hlen : 0 < dr_len) (hp : p < 2 ^ dr_len)
    (hrows : access_rows devices addr p device write w.last_ir_val = some rows)
    (hrun : parse_rows o fuel rows w = some wr)
    (hres : wr.jtag_results = rs ++ [raw]) :
    rows.getLast? = some {
        chain := "dr",
        length := dr_len + devices.length - 1,
        value := if write then p <<< (devices.length - 1 - device) else 0,
        tag := none } ∧
    (parse_row {
        chain := "dr", length := dr_len + devices.length - 1,
        value := if write then p <<< (devices.length - 1 - device) else 0,
        tag := none }).map (Option.map (fun leg =>
          (leg.kind, leg.bits.length, binVal leg.bits))) =
      some (some (JtagLeg.DR, dr_len + devices.length - 1,
        if write then p <<< (devices.length - 1 - device) else 0)) ∧
    access o fuel devices addr p device write w =
      some ((raw >>> (devices.length - 1 - device)) &&& (2 ^ dr_len - 1),
        { wr with last_ir_val := ((total_ir devices device addr).1 : Int),
                  jtag_results := rs }) := by
  have hdev : device < devices.length := by
    by_contra hcon
    rw [List.getElem?_eq_none (by omega)] at hd
    exact Option.noConfusion hd
  have hval : (if write then p <<< (devices.length - 1 - device) else 0) <
      2 ^ (dr_len + devices.length - 1) := by
    have hk : dr_len + (devices.length - 1 - device) ≤
        dr_len + devices.length - 1 := by omega
    have hsh : p <<< (devices.length - 1 - device) <
        2 ^ (dr_len + devices.length - 1) := by
      rw [Nat.shiftLeft_eq]
      calc p * 2 ^ (devices.length - 1 - device)
          < 2 ^ dr_len * 2 ^ (devices.length - 1 - device) := by
            exact (Nat.mul_lt_mul_right (Nat.pos_pow_of_pos _ (by omega))).mpr hp
        _ = 2 ^ (dr_len + (devices.length - 1 - device)) := by
            rw [pow_add]
        _ ≤ 2 ^ (dr_len + devices.length - 1) :=
            Nat.pow_le_pow_right (by omega) hk
    cases write <;> simp [hsh]
  have hrows' : rows =
      (if ((total_ir devices device addr).1 : Int) = w.last_ir_val then []
       else [{ chain := "ir", length := (total_ir devices device addr).2,
               value := (total_ir devices device addr).1, tag := some "id" }]) ++
      [{ chain := "dr", length := dr_len + devices.length - 1,
         value := if write then p <<< (devices.length - 1 - device) else 0,
         tag := none }] := by
    have := hrows
    simp [access_rows, hd, hw] at this
    exact this.symm
  refine ⟨?_, ?_, ?_⟩
  · rw [hrows', List.getLast?_concat]
  · rw [parse_row_dr]
    simp [padBits_length _ _ (by omega) hval, padBits_val]
  · simp only [access, hd, hw, Option.bind_eq_bind, Option.some_bind, hrows,
               hrun, hres, List.getLast?_concat, List.dropLast_concat]

/-- A concrete one-device catalog: IR width 2, BYPASS opcode 3, register
address 1 of width 3 bits. -/
def devW : JTAGDevice :=
  { ir_len := 2, bypass_addr := 3, addr_width := fun a => if a = 1 then some 3 else none }

/-- The rows `access` assembles for a first write of 5 to address 1 of the
one-device chain `[devW]`. -/
def rowsC2 : List Row :=
  [{ chain := "ir", length := 2, value := 1, tag := some "id" },
   { chain := "dr", length := 3, value := 5, tag := none }]

/-- The walker state after running `rowsC2` from `wIdle` under `oMod3`. -/
def wrC2 : W :=
  { state := .RUN_TEST_IDLE, jtag_legs := [], cur_leg := none, tdo_vect := [],
    do_pause := false, readout := false, jtag_results := [0, 4], readdata := 0,
    last_ir_val := 5, tms_reset_num := 7,
    trace := [(false, true), (false, true), (false, false), (false, false),
              (true, false), (false, true), (false, true), (false, true),
              (false, false), (false, false), (true, false), (false, false),
              (true, true), (false, true), (false, false)],
    cycle := 15 }

theorem c2_chain_access_witness :
    rowsC2.getLast? = some {
        chain := "dr", length := 3 + [devW].length - 1,
        value := if true then 5 <<< ([devW].length - 1 - 0) else 0,
        tag := none } ∧
    (parse_row {
        chain := "dr", length := 3 + [devW].length - 1,
        value := if true then 5 <<< ([devW].length - 1 - 0) else 0,
        tag := none }).map (Option.map (fun leg =>
          (leg.kind, leg.bits.length, binVal leg.bits))) =
      some (some (JtagLeg.DR, 3 + [devW].length - 1,
        if true then 5 <<< ([devW].length - 1 - 0) else 0)) ∧
    access oMod3 100 [devW] 1 5 0 true wIdle =
      some ((4 >>> ([devW].length - 1 - 0)) &&& (2 ^ 3 - 1),
        { wrC2 with last_ir_val := ((total_ir [devW] 0 1).1 : Int),
                    jtag_results := [0] }) :=
  c2_chain_access oMod3 100 [devW] 1 5 0 3 devW true wIdle rowsC2 wrC2 [0] 4
    rfl rfl (by decide) (by decide) (by decide) (by decide) (by decide)

/-- One request of the structured register-access API. -/
structure Req where
  addr : Nat
  data : Nat
  device : Nat
  write : Bool
deriving DecidableEq, Repr

/-- Whether one `access` call emits an IR scan row: the row batch it
assembles has two rows (IR then DR) rather than just the DR row. -/
def emits_ir (devices : List JTAGDevice) (r : Req) (last_ir : Int) : Bool :=
  match access_rows devices r.addr r.data r.device r.write last_ir with
  | none => false
  | some rows => rows.length == 2

/-- Run a list of `access` calls in order with no intervening TMS reset,
collecting for each call whether it emitted an IR scan row. -/
def run_accesses (o : Nat → Bool) (fuel : Nat) (devices : List JTAGDevice) :
    List Req → W → Option (W × List Bool)
  | [], w => some (w, [])
  | r :: rest, w =>
    match access o fuel devices r.addr r.data r.device r.write w with
    | none => none
    | some (_, w1) =>
      match run_accesses o fuel devices rest w1 with
      | none => none
      | some (w2, flags) =>
        some (w2, emits_ir devices r w.last_ir_val :: flags)

/-- The claim's description of which calls emit an IR scan, written from
the spec's words: a call emits iff its `total_ir_val` differs from the
previous call's `total_ir_val`, starting from the cached sentinel. -/
def spec_flags (devices : List JTAGDevice) : List Req → Int → List Bool
  | [], _ => []
  | r :: rest, last =>
    decide (((total_ir devices r.device r.addr).1 : Int) ≠ last) ::
      spec_flags devices rest ((total_ir devices r.device r.addr).1 : Int)

theorem access_last_ir (o : Nat → Bool) (fuel : Nat)
    (devices : List JTAGDevice) (addr data device : Nat) (write : Bool)
    (w : W) (v : Nat) (w1 : W)
    (h : access o fuel devices addr data device write w = some (v, w1)) :
    w1.last_ir_val = ((total_ir devices device addr).1 : Int) ∧
    emits_ir devices ⟨addr, data, device, write⟩ w.last_ir_val =
      decide (((total_ir devices device addr).1 : Int) ≠ w.last_ir_val) := by
  simp only [access, Option.bind_eq_bind] at h
  cases hd : devices[device]? with
  | none => rw [hd] at h; simp at h
  | some d =>
    rw [hd] at h
    simp only [Option.some_bind] at h
    cases hw : d.addr_width addr with
    | none => rw [hw] at h; simp at h
    | some dr_len =>
      rw [hw] at h
      simp only [Option.some_bind] at h
      have hrows : access_rows devices addr data device write w.last_ir_val =
          some ((if ((total_ir devices device addr).1 : Int) = w.last_ir_val
                 then []
                 else [{
                   chain := "ir", length := (total_ir devices device addr).2,
                   value := (total_ir devices device addr).1,
                   tag := some "id" }]) ++
                [{
                   chain := "dr",
                   length := dr_len + devices.length - 1,
                   value := if write then data <<< (devices.length - 1 - device) else 0,
                   tag := none }]) := by
        simp [access_rows, hd, hw]
      rw [hrows] at h
      simp only [Option.some_bind] at h
      constructor
      · cases hrun : parse_rows o fuel _ w with
        | none => rw [hrun] at h; simp at h
        | some wr =>
          rw [hrun] at h
          simp only [Option.some_bind] at h
          cases hlast : wr.jtag_results.getLast? with
          | none => rw [hlast] at h; simp at h
          | some raw =>
            rw [hlast] at h
            simp only [Option.some.injEq, Prod.mk.injEq] at h
            rw [← h.2]
      · rw [emits_ir, hrows]
        by_cases hc : ((total_ir devices device addr).1 : Int) = w.last_ir_val <;>
          simp [hc]

/-- C4: for any sequence of `access` calls with no intervening TMS reset,
each of which completes, the sequence of emitted-IR flags is exactly the
spec's: a call emits an IR scan row iff its `total_ir_val` differs from the
previous call's (the sentinel standing in before the first call); in
particular, when the cache starts at the sentinel `-1` the first call
always emits one. -/
theorem c4_ir_cache (o : Nat → Bool) (fuel : Nat) (devices : List JTAGDevice) :
    ∀ (reqs : List Req) (w w' : W) (flags : List Bool),
    run_accesses o fuel devices reqs w = some (w', flags) →
    flags = spec_flags devices reqs w.last_ir_val ∧
    (w.last_ir_val = -1 → ∀ r rest, reqs = r :: rest →
      flags.head? = some true) := by
  intro reqs
  induction reqs with
  | nil =>
    intro w w' flags h
    simp [run_accesses] at h
    exact ⟨by simp [h.2.symm, spec_flags], by intro _ r rest hcon; cases hcon⟩
  | cons r rest ih =>
    intro w w' flags h
    simp only [run_accesses] at h
    cases ha : access o fuel devices r.addr r.data r.device r.write w with
    | none => rw [ha] at h; simp at h
    | some p =>
      rw [ha] at h
      obtain ⟨v, w1⟩ := p
      cases hrest : run_accesses o fuel devices rest w1 with
      | none => simp [hrest] at h
      | some q =>
        obtain ⟨w2, fl⟩ := q
        simp only [hrest, Option.some.injEq, Prod.mk.injEq] at h
        obtain ⟨hw2, hfl⟩ := h
        obtain ⟨hlast, hemit⟩ :=
          access_last_ir o fuel devices r.addr r.data r.device r.write w v w1 ha
        have hrec := (ih w1 w2 fl hrest).1
        constructor
        · rw [← hfl, spec_flags, hemit, hrec, hlast]
        · intro hsent r0 rest0 hreq
          rw [← hfl]
          simp only [List.head?_cons, Option.some.injEq]
          rw [hemit, hsent]
          simp

/-- A concrete walker state whose IR cache holds the sentinel. -/
def wSent : W := { wIdle with last_ir_val := -1 }

/-- The walker state after a write of 5 then a read of address 1 on the
one-device chain `[devW]` from `wSent` under `oMod3`. -/
def wC4 : W :=
  { state := .RUN_TEST_IDLE, jtag_legs := [], cur_leg := none, tdo_vect := [],
    do_pause := false, readout := false, jtag_results := [], readdata := 0,
    last_ir_val := 1, tms_reset_num := 7,
    trace := [(false, true), (false, true), (false, false), (false, false),
              (true, false), (false, true), (false, true), (false, true),
              (false, false), (false, false), (true, false), (false, false),
              (true, true), (false, true), (false, false), (false, true),
              (false, false), (false, false), (false, false), (false, false),
              (false, true), (false, true), (false, false)],
    cycle := 23 }

theorem c4_ir_cache_witness :
    [true, false] =
      spec_flags [devW] [⟨1, 5, 0, true⟩, ⟨1, 0, 0, false⟩] wSent.last_ir_val ∧
    (wSent.last_ir_val = -1 → ∀ r rest,
      ([⟨1, 5, 0, true⟩, ⟨1, 0, 0, false⟩] : List Req) = r :: rest →
      ([true, false] : List Bool).head? = some true) :=
  c4_ir_cache oMod3 100 [devW] [⟨1, 5, 0, true⟩, ⟨1, 0, 0, false⟩]
    wSent wC4 [true, false] (by decide)

/-- Erase a leg's tag (the walker never reads it). -/
def stripLeg (l : Leg) : Leg := { l with tag := " " }

/-- Erase every tag held in a walker state. -/
def stripW (w : W) : W :=
  { w with jtag_legs := w.jtag_legs.map stripLeg,
           cur_leg := w.cur_leg.map stripLeg }

theorem jtag_step_strip (o : Nat → Bool) (w : W) :
    jtag_step o (stripW w) = (jtag_step o w).map stripW := by
  cases hs : w.state
  case TEST_LOGIC_RESET =>
    by_cases hl : w.jtag_legs.length = 0 <;>
      simp [jtag_step, stripW, hs, hl, phy_sync]
  case RUN_TEST_IDLE =>
    cases hc : w.cur_leg with
    | none =>
      cases hl : w.jtag_legs with
      | nil => simp [jtag_step, stripW, hs, hc, hl, phy_sync]
      | cons l ls => simp [jtag_step, stripW, hs, hc, hl, phy_sync]
    | some leg =>
      cases hk : leg.kind
      case RS =>
        cases hl : w.jtag_legs with
        | nil => simp [jtag_step, stripW, stripLeg, hs, hc, hk, hl, syncs_eq]
        | cons l ls => simp [jtag_step, stripW, stripLeg, hs, hc, hk, hl, syncs_eq]
      case DL =>
        cases hl : w.jtag_legs with
        | nil => simp [jtag_step, stripW, stripLeg, hs, hc, hk, hl]
        | cons l ls => simp [jtag_step, stripW, stripLeg, hs, hc, hk, hl]
      case ID =>
        cases hl : w.jtag_legs with
        | nil => simp [jtag_step, stripW, stripLeg, hs, hc, hk, hl, phy_sync]
        | cons l ls => simp [jtag_step, stripW, stripLeg, hs, hc, hk, hl, phy_sync]
      all_goals simp [jtag_step, stripW, stripLeg, hs, hc, hk, phy_sync]
  case SELECT_SCAN => simp [jtag_step, stripW, hs, phy_sync]
  case CAPTURE => simp [jtag_step, stripW, hs, phy_sync]
  case SHIFT =>
    cases hc : w.cur_leg with
    | none => simp [jtag_step, stripW, hs, hc]
    | some leg =>
      by_cases hk : leg.kind = .DRC ∨ leg.kind = .DRS
      · simp [jtag_step, stripW, stripLeg, hs, hc, hk]
      · by_cases hlen : 1 < leg.bits.length
        · simp [jtag_step, stripW, stripLeg, hs, hc, hk, hlen, phy_sync]
        · cases hb : leg.bits with
          | nil => simp [jtag_step, stripW, stripLeg, hs, hc, hk, hlen, hb]
          | cons b bs =>
            have hbs : bs = [] := by
              rw [hb, List.length_cons] at hlen
              exact List.length_eq_zero.mp (by omega)
            subst hbs
            simp [jtag_step, stripW, stripLeg, hs, hc, hk, hlen, hb, phy_sync]
  case EXIT1 =>
    cases hp : w.do_pause <;> simp [jtag_step, stripW, hs, hp, phy_sync]
  case PAUSE => simp [jtag_step, stripW, hs, phy_sync]
  case EXIT2 => simp [jtag_step, stripW, hs, phy_sync]
  case UPDATE =>
    cases htv : w.tdo_vect with
    | nil => simp [jtag_step, stripW, hs, htv]
    | cons b tv =>
      cases hl : w.jtag_legs with
      | nil =>
        cases hro : w.readout <;>
          simp [jtag_step, stripW, hs, htv, hl, hro, phy_sync]
      | cons head rest =>
        cases hk : head.kind <;> cases hro : w.readout <;>
          simp [jtag_step, stripW, stripLeg, hs, htv, hl, hk, hro, phy_sync]

theorem loopA_strip (o : Nat → Bool) (f : Nat) : ∀ w : W,
    loopA o f (stripW w) = (loopA o f w).map stripW := by
  induction f with
  | zero =>
    intro w
    by_cases h : idleState w.state <;> simp [loopA, stripW, h]
  | succ f ih =>
    intro w
    by_cases h : idleState w.state
    · rw [loopA_succ_idle o f (stripW w) (by simpa [stripW] using h),
          loopA_succ_idle o f w h, jtag_step_strip]
      cases hstep : jtag_step o w with
      | none => simp
      | some w1 =>
        cases hc : w1.cur_leg with
        | none => simp [hstep, stripW, hc]
        | some l =>
          have hnc : ¬ (stripW w1).cur_leg = none := by simp [stripW, hc]
          have hnc2 : ¬ w1.cur_leg = none := by simp [hc]
          simp only [Option.map_some']
          rw [if_neg hnc, if_neg hnc2, ih w1]
    · rw [loopA_not_idle o _ (stripW w) (by simpa [stripW] using h),
          loopA_not_idle o _ w h]
      simp

theorem loopB_strip (o : Nat → Bool) (f : Nat) : ∀ w : W,
    loopB o f (stripW w) = (loopB o f w).map stripW := by
  induction f with
  | zero =>
    intro w
    by_cases h : idleState w.state <;> simp [loopB, stripW, h]
  | succ f ih =>
    intro w
    by_cases h : idleState w.state
    · rw [loopB_idle o _ (stripW w) (by simpa [stripW] using h),
          loopB_idle o _ w h]
      simp
    · rw [loopB_succ_not_idle o f (stripW w) (by simpa [stripW] using h),
          loopB_succ_not_idle o f w h, jtag_step_strip]
      cases hstep : jtag_step o w with
      | none => simp
      | some w1 => simp [ih w1]

theorem jtag_next_strip (o : Nat → Bool) (f : Nat) (w : W) :
    jtag_next o f (stripW w) = (jtag_next o f w).map stripW := by
  unfold jtag_next
  by_cases h : idleState w.state
  · by_cases hl : w.jtag_legs.length ≠ 0
    · rw [if_pos (by simpa [stripW] using h), if_pos h,
          if_pos (by simpa [stripW] using hl), if_pos hl, loopA_strip]
      cases hA : loopA o f w with
      | none => simp
      | some w1 => simp [loopB_strip]
    · rw [if_pos (by simpa [stripW] using h), if_pos h,
          if_neg (by simpa [stripW] using hl), if_neg hl]
      exact jtag_step_strip o w
  · rw [if_neg (by simpa [stripW] using h), if_neg h]
    exact loopB_strip o f w

theorem process_command_strip (o : Nat → Bool) (fuel : Nat) : ∀ w : W,
    process_command o fuel (stripW w) = (process_command o fuel w).map stripW := by
  induction fuel with
  | zero =>
    intro w
    by_cases hl : w.jtag_legs = [] <;>
      simp [process_command, stripW, List.map_eq_nil_iff, hl]
  | succ f ih =>
    intro w
    by_cases hl : w.jtag_legs = []
    · simp [process_command, stripW, List.map_eq_nil_iff, hl]
    · rw [process_command_succ o f w hl,
          process_command_succ o f (stripW w)
            (by simpa [stripW, List.map_eq_nil_iff] using hl),
          jtag_next_strip]
      cases hn : jtag_next o f w with
      | none => simp
      | some w1 => simp [ih w1]

/-- Two rows that may differ only in the optional fourth (tag) field. -/
def rowsMatch (r1 r2 : Row) : Prop :=
  r1.chain = r2.chain ∧ r1.length = r2.length ∧ r1.value = r2.value

theorem parse_row_strip (r1 r2 : Row) (h : rowsMatch r1 r2) :
    (parse_row r1).map (Option.map stripLeg) =
    (parse_row r2).map (Option.map stripLeg) := by
  obtain ⟨h1, h2, h3⟩ := h
  unfold parse_row
  rw [h1, h2, h3]
  cases hm : r2.chain.data with
  | nil => simp [hm]
  | cons c cs =>
    simp only [hm]
    split_ifs <;> simp [stripLeg]

theorem parse_append_strip : ∀ (rows1 rows2 : List Row),
    List.Forall₂ rowsMatch rows1 rows2 →
    ∀ (acc1 acc2 : List Leg), acc1.map stripLeg = acc2.map stripLeg →
    (parse_append rows1 acc1).map (List.map stripLeg) =
    (parse_append rows2 acc2).map (List.map stripLeg) := by
  intro rows1 rows2 hf
  induction hf with
  | nil =>
    intro acc1 acc2 hacc
    simp [parse_append, hacc]
  | @cons a b l1 l2 hr _ ih =>
    intro acc1 acc2 hacc
    simp only [parse_append]
    have hp := parse_row_strip a b hr
    cases h1 : parse_row a with
    | none =>
      rw [h1] at hp
      have h2 : parse_row b = none := by
        cases h2 : parse_row b with
        | none => rfl
        | some x => rw [h2] at hp; simp at hp
      rw [h2]
    | some o1 =>
      rw [h1] at hp
      cases h2 : parse_row b with
      | none => rw [h2] at hp; simp at hp
      | some o2 =>
        rw [h2] at hp
        simp only [Option.map_some', Option.some.injEq] at hp
        cases o1 with
        | none =>
          cases o2 with
          | none => exact ih acc1 acc2 hacc
          | some l => simp at hp
        | some leg1 =>
          cases o2 with
          | none => simp at hp
          | some leg2 =>
            simp only [Option.map_some', Option.some.injEq] at hp
            exact ih (acc1 ++ [leg1]) (acc2 ++ [leg2])
              (by simp [hacc, hp])

/-- C10: two row batches that differ only in the optional tag field of any
rows produce identical `phy_sync (tdi, tms)` call sequences and identical
`jtag_results` (so in particular the IR-to-DR shortcut taken at Update,
which reads only the kind of the head pending leg, is unaffected by
tags). -/
theorem c10_tag_independence (o : Nat → Bool) (fuel : Nat)
    (rows1 rows2 : List Row) (w : W)
    (h : List.Forall₂ rowsMatch rows1 rows2) :
    (parse_rows o fuel rows1 w).map (fun v => (v.trace, v.jtag_results)) =
    (parse_rows o fuel rows2 w).map (fun v => (v.trace, v.jtag_results)) := by
  have hpa := parse_append_strip rows1 rows2 h [] [] rfl
  unfold parse_rows
  cases h1 : parse_append rows1 [] with
  | none =>
    rw [h1] at hpa
    have h2 : parse_append rows2 [] = none := by
      cases h2 : parse_append rows2 [] with
      | none => rfl
      | some x => rw [h2] at hpa; simp at hpa
    rw [h2]
  | some legs1 =>
    rw [h1] at hpa
    cases h2 : parse_append rows2 [] with
    | none => rw [h2] at hpa; simp at hpa
    | some legs2 =>
      rw [h2] at hpa
      simp only [Option.map_some', Option.some.injEq] at hpa
      have hw12 : stripW { w with
          jtag_legs := legs1, cur_leg := none, jtag_results := [] } =
        stripW { w with
          jtag_legs := legs2, cur_leg := none, jtag_results := [] } := by
        simp [stripW, hpa]
      have key : ∀ legs : List Leg,
          (process_command o fuel { w with
            jtag_legs := legs, cur_leg := none, jtag_results := [] }).map
              (fun v => (v.trace, v.jtag_results)) =
          (process_command o fuel (stripW { w with
            jtag_legs := legs, cur_leg := none, jtag_results := [] })).map
              (fun v => (v.trace, v.jtag_results)) := by
        intro legs
        rw [process_command_strip]
        cases process_command o fuel { w with
            jtag_legs := legs, cur_leg := none, jtag_results := [] } with
        | none => simp
        | some v => simp [stripW]
      rw [key legs1, key legs2, hw12]

/-- An IR+DR row batch with the shortcut tag on the IR row. -/
def rowsTagA : List Row :=
  [{ chain := "ir", length := 2, value := 1, tag := some "id" },
   { chain := "dr", length := 3, value := 5, tag := none }]

/-- The same batch with different tag fields on both rows. -/
def rowsTagB : List Row :=
  [{ chain := "ir", length := 2, value := 1, tag := none },
   { chain := "dr", length := 3, value := 5, tag := some "zz" }]

theorem c10_tag_independence_witness :
    (parse_rows oMod3 100 rowsTagA wIdle).map (fun v => (v.trace, v.jtag_results)) =
    (parse_rows oMod3 100 rowsTagB wIdle).map (fun v => (v.trace, v.jtag_results)) :=
  c10_tag_independence oMod3 100 rowsTagA rowsTagB wIdle
    (List.Forall₂.cons ⟨rfl, rfl, rfl⟩
      (List.Forall₂.cons ⟨rfl, rfl, rfl⟩ List.Forall₂.nil))

/-- Little-endian value of a byte list. -/
def leVal : List Nat → Nat
  | [] => 0
  | b :: rest => b + 256 * leVal rest

/-- The `k` low little-endian bytes of a number. -/
def bytesOfNat : Nat → Nat → List Nat
  | 0, _ => []
  | k + 1, v => v % 256 :: bytesOfNat k (v / 256)

/-- Bit `i` of a byte buffer, bit 0 of byte 0 first (the XVC shift bit
ordering). -/
def bitOfBytes (l : List Nat) (i : Nat) : Bool :=
  (l.getD (i / 8) 0).testBit (i % 8)

theorem gpio_transfer_short (tms tdi : Nat) : ∀ (n : Nat) (p : Pins),
    (gpio_transfer shortTarget n tms tdi p).1 = tdi % 2 ^ n := by
  intro n
  induction n with
  | zero => intro p; simp [gpio_transfer, Nat.mod_one]
  | succ n ih =>
    intro p
    have ihp := ih p
    rw [gpio_transfer] at ihp ⊢
    rw [List.range_succ, List.foldl_append]
    rcases hq : (List.range n).foldl
        (fun acc i =>
          let tms_bit := (tms >>> i) &&& 1
          let tdi_bit := (tdi >>> i) &&& 1
          let p1 := gpio_write 0 tms_bit tdi_bit acc.2
          let p2 := gpio_write 1 tms_bit tdi_bit p1
          let tdo_bit := gpio_read shortTarget p2
          let p3 := gpio_write 0 tms_bit tdi_bit p2
          (acc.1 ||| (tdo_bit <<< i), p3))
        (0, p) with ⟨q1, q2⟩
    rw [hq] at ihp
    simp only [List.foldl_cons, List.foldl_nil] at ihp ⊢
    have hread : gpio_read shortTarget
        (gpio_write 1 ((tms >>> n) &&& 1) ((tdi >>> n) &&& 1)
          (gpio_write 0 ((tms >>> n) &&& 1) ((tdi >>> n) &&& 1) q2)) =
        (tdi >>> n) &&& 1 := by
      have hb : (tdi >>> n) &&& 1 = 0 ∨ (tdi >>> n) &&& 1 = 1 := by
        rcases Nat.mod_two_eq_zero_or_one (tdi >>> n) with h | h <;>
          simp [Nat.and_one_is_mod, h]
      rcases hb with h | h <;> simp [gpio_read, gpio_write, shortTarget, h]
    simp only [hread]
    rw [ihp]
    have hlt : tdi % 2 ^ n < 2 ^ n := Nat.mod_lt _ (Nat.pos_pow_of_pos _ (by omega))
    have hsh : ((tdi >>> n) &&& 1) <<< n = 2 ^ n * ((tdi / 2 ^ n) % 2) := by
      rw [Nat.shiftLeft_eq, Nat.and_one_is_mod, Nat.shiftRight_eq_div_pow]
      ring
    rw [Nat.lor_comm, hsh, ← Nat.mul_add_lt_is_or hlt]
    rw [Nat.mod_pow_succ]
    ring

theorem pack4_eq (v : Nat) : pack4 v = bytesOfNat 4 v := by
  simp [pack4, bytesOfNat, Nat.div_div_eq_div_mul]

theorem bytesOfNat_take : ∀ (j k v : Nat), k ≤ j →
    (bytesOfNat j v).take k = bytesOfNat k v := by
  intro j
  induction j with
  | zero =>
    intro k v hk
    have : k = 0 := by omega
    simp [this, bytesOfNat]
  | succ j ih =>
    intro k v hk
    cases k with
    | zero => simp [bytesOfNat]
    | succ k => simp [bytesOfNat, ih k (v / 256) (by omega)]

theorem bytesOfNat_append : ∀ (j k u r : Nat), u < 256 ^ j →
    bytesOfNat (j + k) (u + 256 ^ j * r) = bytesOfNat j u ++ bytesOfNat k r := by
  intro j
  induction j with
  | zero =>
    intro k u r hu
    have : u = 0 := by simpa using hu
    simp [this, bytesOfNat]
  | succ j ih =>
    intro k u r hu
    have hv : u + 256 ^ (j + 1) * r = u + 256 * (256 ^ j * r) := by ring
    have e1 : (u + 256 ^ (j + 1) * r) % 256 = u % 256 := by
      rw [hv, Nat.add_mul_mod_self_left]
    have e2 : (u + 256 ^ (j + 1) * r) / 256 = u / 256 + 256 ^ j * r := by
      rw [hv, Nat.add_mul_div_left _ _ (by omega)]
    have hu2 : u / 256 < 256 ^ j := by
      rw [Nat.div_lt_iff_lt_mul (by omega)]
      calc u < 256 ^ (j + 1) := hu
        _ = 256 ^ j * 256 := by ring
    have : j + 1 + k = (j + k) + 1 := by omega
    rw [this]
    show (u + 256 ^ (j+1) * r) % 256 :: bytesOfNat (j + k) ((u + 256 ^ (j+1) * r) / 256) = _
    rw [e1, e2, ih k (u / 256) r hu2]
    simp [bytesOfNat]

theorem unpack4_eq_leVal : ∀ l : List Nat, l.length ≤ 4 → unpack4 l = leVal l := by
  intro l
  match l with
  | [] => intro _; simp [unpack4, leVal]
  | [a] => intro _; simp [unpack4, leVal]
  | [a, b] => intro _; simp [unpack4, leVal]; try ring
  | [a, b, c] => intro _; simp [unpack4, leVal]; try ring
  | [a, b, c, d] => intro _; simp [unpack4, leVal]; try ring
  | a :: b :: c :: d :: e :: rest => intro h; simp at h

theorem leVal_append (l1 l2 : List Nat) :
    leVal (l1 ++ l2) = leVal l1 + 256 ^ l1.length * leVal l2 := by
  induction l1 with
  | nil => simp [leVal]
  | cons a rest ih =>
    simp only [List.cons_append, leVal, List.length_cons, List.append_eq]
    rw [ih]
    ring

theorem leVal_lt (l : List Nat) (h : ∀ b ∈ l, b < 256) :
    leVal l < 256 ^ l.length := by
  induction l with
  | nil => simp [leVal]
  | cons a rest ih =>
    have ha : a < 256 := h a (by simp)
    have hr := ih (fun b hb => h b (by simp [hb]))
    simp only [leVal, List.length_cons, pow_succ]
    calc a + 256 * leVal rest < 256 + 256 * leVal rest := by omega
      _ = 256 * (leVal rest + 1) := by ring
      _ ≤ 256 * 256 ^ rest.length := by
          exact Nat.mul_le_mul_left _ (by omega)
      _ = 256 ^ rest.length * 256 := by ring

theorem add_mul_mod_mul (a b n m : Nat) (ha : a < b) (hm : 0 < m) :
    (a + b * n) % (b * m) = a + b * (n % m) := by
  conv_lhs => rw [← Nat.div_add_mod n m]
  have e : a + b * (m * (n / m) + n % m) =
      (a + b * (n % m)) + (b * m) * (n / m) := by ring
  rw [e, Nat.add_mul_mod_self_left]
  refine Nat.mod_eq_of_lt ?_
  have h1 : n % m < m := Nat.mod_lt _ hm
  calc a + b * (n % m) < b + b * (n % m) := by omega
    _ = b * (1 + n % m) := by ring
    _ ≤ b * m := Nat.mul_le_mul_left _ (by omega)

theorem bytesOfNat_getD : ∀ (k v j : Nat),
    (bytesOfNat k v).getD j 0 = if j < k then v / 2 ^ (8 * j) % 256 else 0 := by
  intro k
  induction k with
  | zero => intro v j; simp [bytesOfNat]
  | succ k ih =>
    intro v j
    cases j with
    | zero => simp [bytesOfNat]
    | succ j =>
      simp only [bytesOfNat, List.getD_cons_succ, ih (v / 256) j]
      have e : v / 256 / 2 ^ (8 * j) = v / 2 ^ (8 * (j + 1)) := by
        rw [Nat.div_div_eq_div_mul]
        congr 1
        rw [show 8 * (j + 1) = 8 + 8 * j by ring, pow_add]
        norm_num
      rw [e]
      by_cases hj : j < k <;> simp [hj, Nat.succ_lt_succ_iff]

theorem leVal_testBit (l : List Nat) (h : ∀ b ∈ l, b < 256) : ∀ i : Nat,
    (leVal l).testBit i = bitOfBytes l i := by
  induction l with
  | nil => intro i; simp [leVal, bitOfBytes, Nat.zero_testBit]
  | cons a rest ih =>
    intro i
    have ha : a < 256 := h a (by simp)
    have e : leVal (a :: rest) = 2 ^ 8 * leVal rest + a := by
      simp [leVal]; ring
    rw [e, Nat.testBit_mul_pow_two_add _ (by exact_mod_cast ha)]
    by_cases hi : i < 8
    · simp only [if_pos hi, bitOfBytes]
      rw [Nat.div_eq_of_lt (by omega), Nat.mod_eq_of_lt (by omega)]
      simp
    · simp only [if_neg hi]
      rw [ih (fun b hb => h b (by simp [hb])) (i - 8)]
      simp only [bitOfBytes]
      have e1 : (i - 8) / 8 = i / 8 - 1 := by omega
      have e2 : (i - 8) % 8 = i % 8 := by omega
      have e3 : (a :: rest).getD (i / 8) 0 = rest.getD (i / 8 - 1) 0 := by
        have : i / 8 = (i / 8 - 1) + 1 := by omega
        rw [this]
        simp
      rw [e1, e2, e3]

theorem bitOfBytes_bytesOfNat (k v i : Nat) (hi : i < 8 * k) :
    bitOfBytes (bytesOfNat k v) i = v.testBit i := by
  have hq : i / 8 < k := by omega
  rw [bitOfBytes, bytesOfNat_getD, if_pos hq]
  have h8 : (256 : Nat) = 2 ^ 8 := by norm_num
  have hr : i % 8 < 8 := Nat.mod_lt _ (by omega)
  rw [h8, Nat.testBit_mod_two_pow]
  simp only [hr, decide_True, Bool.true_and]
  rw [← Nat.shiftRight_eq_div_pow, Nat.testBit_shiftRight]
  congr 1
  omega

theorem shift_loop_short (buffer : List Nat) (num_bytes : Nat)
    (hbytes : ∀ b ∈ buffer, b < 256) (hlen : buffer.length = 2 * num_bytes) :
    ∀ (bits_left bytes_left byte_index : Nat) (result : List Nat) (p : Pins),
      bytes_left = (bits_left + 7) / 8 →
      byte_index + bytes_left = num_bytes →
      (shift_loop shortTarget buffer num_bytes bytes_left bits_left byte_index
        result p).1 =
        result ++ bytesOfNat bytes_left
          (leVal ((buffer.drop (byte_index + num_bytes)).take bytes_left) %
            2 ^ bits_left) := by
  intro bits_left
  induction bits_left using Nat.strong_induction_on with
  | _ bits_left ih =>
    intro bytes_left byte_index result p hb hi
    have hslice_len : (buffer.drop (byte_index + num_bytes)).length = bytes_left := by
      rw [List.length_drop, hlen]
      omega
    by_cases h0 : bytes_left = 0
    · subst h0
      rw [shift_loop]
      simp [bytesOfNat]
    · by_cases hg : 4 ≤ bytes_left ∧ 32 ≤ bits_left
      · rw [shift_loop, if_neg h0, dif_pos hg]
        have hrec := ih (bits_left - 32) (by omega) (bytes_left - 4)
          (byte_index + 4) (result ++ pack4
            (gpio_transfer shortTarget 32
              (unpack4 ((buffer.drop byte_index).take 4))
              (unpack4 ((buffer.drop (byte_index + num_bytes)).take 4)) p).1)
          (gpio_transfer shortTarget 32
              (unpack4 ((buffer.drop byte_index).take 4))
              (unpack4 ((buffer.drop (byte_index + num_bytes)).take 4)) p).2
          (by omega) (by omega)
        rw [hrec]
        have hl4 : ((buffer.drop (byte_index + num_bytes)).take 4).length = 4 := by
          rw [List.length_take]
          omega
        have hmem4 : ∀ b ∈ (buffer.drop (byte_index + num_bytes)).take 4, b < 256 :=
          fun b hbm => hbytes b (List.mem_of_mem_drop (List.mem_of_mem_take hbm))
        have hu4 : unpack4 ((buffer.drop (byte_index + num_bytes)).take 4) =
            leVal ((buffer.drop (byte_index + num_bytes)).take 4) :=
          unpack4_eq_leVal _ (by omega)
        have hult : leVal ((buffer.drop (byte_index + num_bytes)).take 4) < 2 ^ 32 := by
          have := leVal_lt _ hmem4
          rw [hl4] at this
          calc leVal _ < 256 ^ 4 := this
            _ = 2 ^ 32 := by norm_num
        have htdo : (gpio_transfer shortTarget 32
              (unpack4 ((buffer.drop byte_index).take 4))
              (unpack4 ((buffer.drop (byte_index + num_bytes)).take 4)) p).1 =
            leVal ((buffer.drop (byte_index + num_bytes)).take 4) := by
          rw [gpio_transfer_short, hu4, Nat.mod_eq_of_lt hult]
        have hsplit : (buffer.drop (byte_index + num_bytes)).take bytes_left =
            (buffer.drop (byte_index + num_bytes)).take 4 ++
            (buffer.drop (byte_index + 4 + num_bytes)).take (bytes_left - 4) := by
          have h4 : bytes_left = 4 + (bytes_left - 4) := by omega
          rw [h4, List.take_add, List.drop_drop]
          congr 3
          omega
        have hval : leVal ((buffer.drop (byte_index + num_bytes)).take bytes_left) %
            2 ^ bits_left =
            leVal ((buffer.drop (byte_index + num_bytes)).take 4) +
            2 ^ 32 * (leVal ((buffer.drop (byte_index + 4 + num_bytes)).take (bytes_left - 4)) %
              2 ^ (bits_left - 32)) := by
          rw [hsplit, leVal_append, hl4]
          have h256 : (256 : Nat) ^ 4 = 2 ^ 32 := by norm_num
          rw [h256]
          have hpow : (2 : Nat) ^ bits_left = 2 ^ 32 * 2 ^ (bits_left - 32) := by
            rw [← pow_add]
            congr 1
            omega
          rw [hpow, add_mul_mod_mul _ _ _ _ hult (Nat.pos_pow_of_pos _ (by omega))]
        rw [htdo, pack4_eq, hval]
        have h256b : (2 : Nat) ^ 32 = 256 ^ 4 := by norm_num
        rw [h256b]
        conv_rhs => rw [show bytes_left = 4 + (bytes_left - 4) from by omega]
        rw [bytesOfNat_append 4 (bytes_left - 4) _ _ (h256b ▸ hult)]
        rw [List.append_assoc]
        have efix : 4 + (bytes_left - 4) - 4 = bytes_left - 4 := by omega
        rw [efix]
      · rw [shift_loop, if_neg h0, dif_neg hg]
        have hble : bytes_left ≤ 4 ∧ bits_left ≤ 31 := by omega
        have htake : (buffer.drop (byte_index + num_bytes)).take bytes_left =
            buffer.drop (byte_index + num_bytes) := by
          rw [← hslice_len]
          exact List.take_length _
        have hmem : ∀ b ∈ (buffer.drop (byte_index + num_bytes)).take bytes_left,
            b < 256 :=
          fun b hbm => hbytes b (List.mem_of_mem_drop (List.mem_of_mem_take hbm))
        have hu : unpack4 ((buffer.drop (byte_index + num_bytes)).take bytes_left) =
            leVal ((buffer.drop (byte_index + num_bytes)).take bytes_left) :=
          unpack4_eq_leVal _ (by rw [List.length_take]; omega)
        simp only [gpio_transfer_short, hu]
        rw [pack4_eq, bytesOfNat_take 4 bytes_left _ (by omega)]

/-- The server's initial pin levels (TCK=0, TMS=1, TDI=0). -/
def pins0 : Pins := { tck := false, tms := true, tdi := false }

/-- C5: against a target that shorts TDI to TDO, `handle_shift` on any
request of `nbits` bits with its TMS and TDI half-buffers returns a TDO
buffer equal to the request's TDI buffer truncated to `nbits` bits: bit
`i` of the `ceil(nbits/8)`-byte reply equals bit `i` of the TDI vector for
`i < nbits` and is 0 for `nbits ≤ i < 8*ceil(nbits/8)`. -/
theorem c5_xvc_shift (nbits : Nat) (buffer : List Nat) (p : Pins)
    (hlen : buffer.length = 2 * ((nbits + 7) / 8))
    (hbytes : ∀ b ∈ buffer, b < 256) :
    ∀ i < 8 * ((nbits + 7) / 8),
      bitOfBytes (handle_shift shortTarget nbits buffer p).1 i =
        if i < nbits then bitOfBytes (buffer.drop ((nbits + 7) / 8)) i
        else false := by
  intro i hi
  have hloop := shift_loop_short buffer ((nbits + 7) / 8) hbytes hlen nbits
    ((nbits + 7) / 8) 0 [] (gpio_write 0 1 1 p) rfl (by omega)
  have he : (handle_shift shortTarget nbits buffer p).1 =
      (shift_loop shortTarget buffer ((nbits + 7) / 8) ((nbits + 7) / 8) nbits 0 []
        (gpio_write 0 1 1 p)).1 := rfl
  rw [he, hloop]
  simp only [List.nil_append, Nat.zero_add]
  have hdl : (buffer.drop ((nbits + 7) / 8)).length = (nbits + 7) / 8 := by
    rw [List.length_drop, hlen]
    omega
  have htake : (buffer.drop ((nbits + 7) / 8)).take ((nbits + 7) / 8) =
      buffer.drop ((nbits + 7) / 8) := by
    exact List.take_of_length_le (by omega)
  rw [htake, bitOfBytes_bytesOfNat _ _ _ hi, Nat.testBit_mod_two_pow,
      leVal_testBit _ (fun b hb => hbytes b (List.mem_of_mem_drop hb))]
  by_cases hib : i < nbits <;> simp [hib]

theorem c5_xvc_shift_witness :
    bitOfBytes (handle_shift shortTarget 12 [85, 5, 170, 15] pins0).1 3 =
      if 3 < 12 then bitOfBytes ([85, 5, 170, 15].drop ((12 + 7) / 8)) 3
      else false :=
  c5_xvc_shift 12 [85, 5, 170, 15] pins0 (by decide)
    (by decide) 3 (by decide)

/-- A client stream beginning with a 2-byte command prefix that is none of
`ge`, `se`, `sh`. -/
def unknownPrefix (s : List Nat) : Prop :=
  2 ≤ s.length ∧ s.take 2 ≠ [103, 101] ∧ s.take 2 ≠ [115, 101] ∧
  s.take 2 ≠ [115, 104]

/-- A client stream beginning with a shift command whose announced bit
count makes the TMS+TDI payload size `2 * ceil(nbits/8)` exceed the
4096-byte cap. -/
def oversizedShift (s : List Nat) : Prop :=
  s.take 2 = [115, 104] ∧ 8 ≤ s.length - 2 ∧
  4096 < ((unpack4 ((s.drop 6).take 4) + 7) / 8) * 2

/-- C8: a client whose next command has an unknown 2-byte prefix, or is a
shift whose computed payload size exceeds 4096 bytes, gets no reply for
that command - `handle_client` returns, closing the connection - and the
accept loop serves every client in turn regardless (one reply list per
accepted client). -/
theorem c8_protocol_errors (tgt : Target) (p : Pins) :
    (∀ s : List Nat, unknownPrefix s → (handle_client tgt s p).1 = []) ∧
    (∀ s : List Nat, oversizedShift s → (handle_client tgt s p).1 = []) ∧
    (∀ (clients : List (List Nat)) (p0 : Pins),
      (serve tgt clients p0).1.length = clients.length) := by
  refine ⟨?_, ?_, ?_⟩
  · rintro s ⟨h2, hne1, hne2, hne3⟩
    rw [handle_client]
    rw [dif_pos h2, if_neg hne1, if_neg hne2, if_neg hne3]
  · rintro s ⟨hpre, hlen8, hsz⟩
    have h2 : 2 ≤ s.length := by
      have := congrArg List.length hpre
      simp [List.length_take] at this
      omega
    have hne1 : s.take 2 ≠ [103, 101] := by rw [hpre]; decide
    have hne2 : s.take 2 ≠ [115, 101] := by rw [hpre]; decide
    rw [handle_client]
    rw [dif_pos h2, if_neg hne1, if_neg hne2, if_pos hpre]
    have hi : 4 ≤ (s.drop 2).length := by
      rw [List.length_drop]
      omega
    have hl : 4 ≤ ((s.drop 2).drop 4).length := by
      rw [List.drop_drop, List.length_drop]
      omega
    rw [dif_pos hi, dif_pos hl]
    have he6 : (s.drop 2).drop 4 = s.drop 6 := by
      rw [List.drop_drop]
    rw [he6, if_pos hsz]
  · intro clients
    induction clients with
    | nil => intro p0; simp [serve]
    | cons c cs ih => intro p0; simp [serve, ih]

theorem c8_protocol_errors_witness :
    (handle_client shortTarget [99, 99] pins0).1 = [] ∧
    (handle_client shortTarget
      [115, 104, 105, 102, 116, 58, 255, 255, 0, 0] pins0).1 = [] ∧
    (serve shortTarget [[99, 99], [103, 101, 1, 2, 3, 4, 5, 6]] pins0).1.length = 2 :=
  ⟨(c8_protocol_errors shortTarget pins0).1 [99, 99]
     ⟨by decide, by decide, by decide, by decide⟩,
   (c8_protocol_errors shortTarget pins0).2.1
     [115, 104, 105, 102, 116, 58, 255, 255, 0, 0]
     ⟨by decide, by decide, by decide⟩,
   (c8_protocol_errors shortTarget pins0).2.2
     [[99, 99], [103, 101, 1, 2, 3, 4, 5, 6]] pins0⟩

end Xvcpi

